import Mathlib

/-
  Verification development for the clinical-roster generation engine.

  Shallow embedding of:
    app/roster/utils.py        (generate_roster_logic, generate_roster_advanced,
                                extract_leave_schedule, format_solution_as_roster)
    app/rostering/csp.py       (RosterCSP and its operations)
    app/rostering/constraints.py (the constraint library)
    app/rostering/solver.py    (RosterSolver.solve_with_backtracking, _backtrack,
                                the ILP window constraints of _add_hard_constraint_to_model)

  Modelling conventions:
  * Calendar dates are modelled as integers (day numbers); date strings,
    `datetime` arithmetic and `strftime` formatting are abstracted away.
    `weekday` is day number mod 7 with 0 = Monday (matching `date.weekday()`),
    and the Singapore-holiday lookup `sg_holidays` is an explicit parameter
    `hol : Int → Option String` (date ↦ holiday name).
  * Python dicts are modelled as insertion-ordered association lists with
    unique keys: update-in-place of the first matching key, append otherwise.
    `dict.get(k, d)` is lookup-with-default.
  * Python's stable `list.sort(key=...)` is modelled by a stable insertion
    sort (`pyStableSortBy`): a new element is inserted after all elements
    whose key is ≤ its key.
  * `pandas.DataFrame` rows of the leave file are modelled by `Row`; a
    missing (NaT) start date yields an empty leave interval exactly as the
    `while current_date <= end_date` loop does on NaT, and a missing end
    date yields a single-day leave.
  * Fallible Python code (exceptions) is modelled with `Except String`.
-/

/-! ### Python-semantics helpers -/

/-- Model of Python's `pandas.Series.unique()` / first-occurrence
deduplication: keeps the first occurrence of each element, in order. -/
def pyUnique {α : Type} [DecidableEq α] (l : List α) : List α :=
  l.foldl (fun acc x => if acc.contains x then acc else acc ++ [x]) []

/-- One step of the stable insertion sort: insert `x` after every element
whose key is ≤ `key x` (so elements with equal keys keep their original
relative order, as Python's stable sort does). -/
def pyInsertSorted {α : Type} (key : α → Nat) (x : α) : List α → List α
  | [] => [x]
  | y :: ys => if key y ≤ key x then y :: pyInsertSorted key x ys else x :: y :: ys

/-- Model of Python's stable `sorted(l, key=...)` / `l.sort(key=...)`
for a natural-number key, ascending. -/
def pyStableSortBy {α : Type} (key : α → Nat) (l : List α) : List α :=
  l.foldl (fun acc x => pyInsertSorted key x acc) []

/-- Insert into a descending-sorted list (for `sorted(values, reverse=True)`). -/
def insertDesc (x : Int) : List Int → List Int
  | [] => [x]
  | y :: ys => if x ≤ y then y :: insertDesc x ys else x :: y :: ys

/-- Model of Python's `sorted(values, reverse=True)` on integers. -/
def sortDesc (l : List Int) : List Int :=
  l.foldl (fun acc x => insertDesc x acc) []

/-- The inclusive integer range `[s, e]`, i.e. the dates visited by
`while current_date <= end_date: ...; current_date += timedelta(days=1)`. -/
def intRange (s e : Int) : List Int :=
  (List.range (e + 1 - s).toNat).map (fun i => s + (i : Int))

/-- `date.weekday()` on the day-number model: 0 = Monday, ..., 6 = Sunday. -/
def weekdayOf (d : Int) : Nat := ((d % 7 + 7) % 7).toNat

/-! ### Leave data (app/roster/utils.py, lines 44-62)

A `Row` is one row of the uploaded leave table: staff name, specialty and
a leave interval.  `leaveStart = none` models an empty/NaT start-date cell
(the date loop then adds no leave dates, since `NaT <= NaT` is falsy);
`leaveEnd = none` models a missing end date (single-day leave). -/

structure Row where
  staff : String
  specialty : String
  leaveStart : Option Int
  leaveEnd : Option Int
deriving DecidableEq

/-- The list of leave dates contributed by one row
(utils.py lines 48-62, also extract_leave_schedule lines 273-288). -/
def leaveInterval (r : Row) : List Int :=
  match r.leaveStart with
  | none => []
  | some s => intRange s (r.leaveEnd.getD s)

/-- `leave_dates[staff]` of utils.py lines 45-62: all leave dates of one
staff member, accumulated over the rows in file order. -/
def leaveDates (df : List Row) (s : String) : List Int :=
  (df.filter (fun r => r.staff = s)).flatMap leaveInterval

/-- utils.py line 75: staff are available on a date unless the date is in
their leave list (a staff member with no rows has an empty leave list). -/
def isAvailable (df : List Row) (s : String) (d : Int) : Bool :=
  ¬ (leaveDates df s).contains d

/-- utils.py lines 93, 122: `df[df[staff_col] == staff][specialty_col].iloc[0]`,
the specialty on the first row carrying this staff name. -/
def specialtyOf (df : List Row) (s : String) : String :=
  ((df.find? (fun r => r.staff = s)).map (fun r => r.specialty)).getD ""

/-! ### Greedy per-day selection (utils.py lines 72-123) -/

/-- utils.py lines 73-76: the staff available on date `d`, in staff-list order. -/
def availableStaffOn (df : List Row) (allStaff : List String) (d : Int) : List String :=
  allStaff.filter (fun s => isAvailable df s d)

/-- The specialties present among `l`, keyed by first occurrence
(`staff_by_specialty` dict keys, lines 91-96). -/
def groupKeys (df : List Row) (l : List String) : List String :=
  pyUnique (l.map (specialtyOf df))

/-- The members of `l` having specialty `sp` (`staff_by_specialty[sp]`),
in the order of `l`. -/
def groupOf (df : List Row) (l : List String) (sp : String) : List String :=
  l.filter (fun s => specialtyOf df s = sp)

/-- utils.py lines 98-109: sort the specialties by group size ascending
(stable) and take, for each specialty while fewer than `minStaff` are
selected, the member of that group with the lowest work count.  Returns
(selected staff, selected specialties).  The `[]` group case is
unreachable: every key of `staff_by_specialty` has at least one member. -/
def pickBySpecialty (df : List Row) (wc : String → Nat) (minStaff : Nat)
    (sortedAvail : List String) : List String × List String :=
  let keys := pyStableSortBy (fun sp => (groupOf df sortedAvail sp).length)
      (groupKeys df sortedAvail)
  keys.foldl (fun acc sp =>
    if acc.1.length < minStaff then
      match pyStableSortBy wc (groupOf df sortedAvail sp) with
      | [] => acc
      | s :: _ => (acc.1 ++ [s], acc.2 ++ [sp])
    else acc) ([], [])

/-- utils.py lines 78-123: the staff selected for one date together with
the covered specialties, given the cumulative work counts `wc`.
Note line 79 sorts `available_staff` in place, so the later grouping and
`remaining_staff` comprehension run over the sorted list. -/
def selectForDay (df : List Row) (allStaff allSpecialties : List String)
    (wc : String → Nat) (minStaff : Nat) (d : Int) : List String × List String :=
  let avail := availableStaffOn df allStaff d
  let sortedAvail := pyStableSortBy wc avail
  if allSpecialties.length ≤ sortedAvail.length then
    let p := pickBySpecialty df wc minStaff sortedAvail
    let remaining := sortedAvail.filter (fun s => ¬ p.1.contains s)
    let remSorted := pyStableSortBy wc remaining
    (p.1 ++ remSorted.take (minStaff - p.1.length), p.2)
  else
    let sel := sortedAvail.take minStaff
    (sel, pyUnique (sel.map (specialtyOf df)))

/-! ### Roster output structures (utils.py lines 142-173, 321-354) -/

structure DayEntry where
  staff : List String
  specialties : List String
  available_count : Nat
  is_weekend : Bool
  is_holiday : Bool
  holiday_name : String
  is_in_lieu : Bool
deriving DecidableEq

structure RosterStats where
  total_days : Nat
  days_understaffed : Nat
  coverage_percentage : ℚ
  staff_work_distribution : List (String × Nat)
  weekend_days : Nat
  holiday_days : Nat
deriving DecidableEq

structure RosterResult where
  roster : List (Int × DayEntry)
  stats : RosterStats
  staff_list : List String
  specialties : List String
deriving DecidableEq

deriving instance DecidableEq for Except

/-- utils.py lines 129-140 and 307-319: holiday flags for one date,
including the Monday in-lieu rule for Sunday holidays.
Returns (is_holiday, holiday_name, is_in_lieu). -/
def holidayInfo (hol : Int → Option String) (d : Int) : Bool × String × Bool :=
  let isH := (hol d).isSome
  let name := (hol d).getD ""
  if weekdayOf d = 0 then
    match hol (d - 1) with
    | some n => (true, n ++ " (In Lieu)", true)
    | none => (isH, name, false)
  else (isH, name, false)

/-- State threaded through the per-day loop of utils.py lines 64-153:
the roster built so far and the cumulative work counts. -/
structure GenState where
  roster : List (Int × DayEntry)
  wc : String → Nat

/-- One iteration of the `while current_date <= roster_end` loop
(utils.py lines 69-153). -/
def dayStep (df : List Row) (allStaff allSpecialties : List String)
    (minStaff : Nat) (hol : Int → Option String) (st : GenState) (d : Int) : GenState :=
  let avail := availableStaffOn df allStaff d
  let sel := selectForDay df allStaff allSpecialties st.wc minStaff d
  let wc' := sel.1.foldl (fun w s => fun x => if x = s then w x + 1 else w x) st.wc
  let h := holidayInfo hol d
  let entry : DayEntry :=
    { staff := sel.1
      specialties := sel.2
      available_count := avail.length
      is_weekend := decide (5 ≤ weekdayOf d)
      is_holiday := h.1
      holiday_name := h.2.1
      is_in_lieu := h.2.2 }
  { roster := st.roster ++ [(d, entry)], wc := wc' }

/-- utils.py lines 22-176, `generate_roster_logic`.  The input dataframe,
rule extraction and column names are abstracted into `df`, `minStaff` and
the roster window `[rosterStart, rosterEnd]`.  An empty roster window makes
the `coverage_percentage` computation divide by zero, which raises and is
re-raised as `Exception` (line 176); this is the `.error` case.  The echoed
`rules` key of the returned dict is the unmodified input and is omitted. -/
def generate_roster_logic (df : List Row) (minStaff : Nat)
    (rosterStart rosterEnd : Int) (hol : Int → Option String) :
    Except String RosterResult :=
  let allStaff := pyUnique (df.map (fun r => r.staff))
  let allSpecialties := pyUnique (df.map (fun r => r.specialty))
  let days := intRange rosterStart rosterEnd
  let fin := days.foldl (dayStep df allStaff allSpecialties minStaff hol)
      { roster := [], wc := fun _ => 0 }
  let total := fin.roster.length
  if total = 0 then
    .error "Error generating roster: division by zero"
  else
    .ok
      { roster := fin.roster
        stats :=
          { total_days := total
            days_understaffed :=
              (fin.roster.filter (fun p => p.2.staff.length < minStaff)).length
            coverage_percentage :=
              (((total : ℚ) -
                ((fin.roster.filter (fun p => p.2.staff.length < minStaff)).length : ℚ))
                / (total : ℚ)) * 100
            staff_work_distribution := allStaff.map (fun s => (s, fin.wc s))
            weekend_days := (fin.roster.filter (fun p => p.2.is_weekend)).length
            holiday_days := (fin.roster.filter (fun p => p.2.is_holiday)).length }
        staff_list := allStaff
        specialties := allSpecialties }

/-! ### CSP assignments (app/rostering/csp.py)

Variables are (staff, date) pairs; an assignment is the Python dict
`Dict[Tuple[str, str], int]`, modelled as an insertion-ordered association
list with unique keys. -/

abbrev Var := String × Int

abbrev Assignment := List (Var × Int)

/-- `assignment.get(v, 0)`. -/
def pyGet (a : Assignment) (v : Var) : Int :=
  match a with
  | [] => 0
  | p :: t => if p.1 = v then p.2 else pyGet t v

/-- `v in assignment` (dict key membership). -/
def aMem (a : Assignment) (v : Var) : Bool :=
  match a with
  | [] => false
  | p :: t => p.1 = v || aMem t v

/-- `assignment[v] = x` (dict update: overwrite the first matching key,
append otherwise; insertion order preserved). -/
def pyInsert (a : Assignment) (v : Var) (x : Int) : Assignment :=
  match a with
  | [] => [(v, x)]
  | p :: t => if p.1 = v then (v, x) :: t else p :: pyInsert t v x

/-! ### Constraint library (app/rostering/constraints.py)

Per the repository's design the dynamically registered constraint objects
are modelled as a closed tagged union.  Only `check` (used by
`is_consistent`) is embedded; the soft constraints' `penalty` methods are
not referenced by any claim and are omitted.  The base-class `check` of
the soft constraints that do not override it raises `NotImplementedError`
and is never invoked by the functions modelled here (`is_consistent` only
calls `check` on hard constraints); those cases are mapped to `true`. -/

inductive ConstraintType where
  | hard
  | soft
deriving DecidableEq

inductive Constraint where
  | minimumStaff (min_staff : Int) (dates : List Int) (staff : List String)
  | maxConsecutiveDays (max_days : Nat) (dates : List Int) (staff : List String)
  | minRestPeriod (min_rest_days : Int) (dates : List Int) (staff : List String)
  | specialtyCoverage (specialties : List (String × String)) (dates : List Int)
      (min_specialties_per_day : Option Nat)
  | fairWorkload (staff : List String)
  | weekendPreference (preferences : List (String × Int)) (dates : List Int)
  | holidayDistribution (holidays : List Int) (historical_counts : List (String × Int))
      (staff : List String)
  | teamPreference (team_preferences : List (String × List String)) (dates : List Int)
deriving DecidableEq

/-- The `ConstraintType` passed to each subclass `__init__`. -/
def Constraint.ctype : Constraint → ConstraintType
  | .minimumStaff _ _ _ => .hard
  | .maxConsecutiveDays _ _ _ => .hard
  | .minRestPeriod _ _ _ => .hard
  | .specialtyCoverage _ _ _ => .hard
  | .fairWorkload _ => .soft
  | .weekendPreference _ _ => .soft
  | .holidayDistribution _ _ _ => .soft
  | .teamPreference _ _ => .soft

/-- constraints.py lines 22-25: `sum(assignment.get((staff, date), 0) for staff in self.staff)`. -/
def dateStaffCount (a : Assignment) (staff : List String) (d : Int) : Int :=
  staff.foldl (fun acc s => acc + pyGet a (s, d)) 0

/-- `MinimumStaffConstraint.check` (constraints.py lines 19-29): every date
must have at least `min_staff` assigned; the early `return False` is the
failing conjunct of `all`. -/
def minimumStaff_check (min_staff : Int) (dates : List Int) (staff : List String)
    (a : Assignment) : Bool :=
  dates.all (fun d => min_staff ≤ dateStaffCount a staff d)

/-- The consecutive-day counter loop of `MaxConsecutiveDaysConstraint.check`
(constraints.py lines 55-64), over the per-date assignment values of one
staff member: `c` is the running `consecutive` counter. -/
def goRun (max_days : Nat) : Nat → List Int → Bool
  | _, [] => true
  | c, x :: t =>
    if x = 1 then
      if max_days < c + 1 then false else goRun max_days (c + 1) t
    else goRun max_days 0 t

/-- `MaxConsecutiveDaysConstraint.check` (constraints.py lines 53-65). -/
def maxConsecutiveDays_check (max_days : Nat) (dates : List Int) (staff : List String)
    (a : Assignment) : Bool :=
  staff.all (fun s => goRun max_days 0 (dates.map (fun d => pyGet a (s, d))))

/-- The index loop of `MinRestPeriodConstraint.check` (constraints.py
lines 97-108): `last` is `last_work_idx`, `i` the enumerate index. -/
def minRestGo (min_rest : Int) : Option Nat → Nat → List Int → Bool
  | _, _, [] => true
  | last, i, x :: t =>
    if x = 1 then
      match last with
      | some j => if ((i : Int) - (j : Int) - 1) < min_rest then false
                  else minRestGo min_rest (some i) (i + 1) t
      | none => minRestGo min_rest (some i) (i + 1) t
    else minRestGo min_rest last (i + 1) t

/-- `MinRestPeriodConstraint.check` (constraints.py lines 95-109). -/
def minRestPeriod_check (min_rest : Int) (dates : List Int) (staff : List String)
    (a : Assignment) : Bool :=
  staff.all (fun s => minRestGo min_rest none 0 (dates.map (fun d => pyGet a (s, d))))

/-- `len(set(specialties.values()))`, the `unique_specialties` count of
`SpecialtyCoverageConstraint.__init__` (constraints.py line 120). -/
def uniqueSpecCount (specialties : List (String × String)) : Nat :=
  (pyUnique (specialties.map (fun p => p.2))).length

/-- constraints.py line 121: `min_specialties_per_day or len(self.unique_specialties)`
(Python `or` also replaces an explicit 0). -/
def scTarget (min_specialties_per_day : Option Nat)
    (specialties : List (String × String)) : Nat :=
  match min_specialties_per_day with
  | none => uniqueSpecCount specialties
  | some 0 => uniqueSpecCount specialties
  | some k => k

/-- The per-date loop body of `SpecialtyCoverageConstraint.check`
(constraints.py lines 136-144): accumulate the set of covered specialties
(as a first-occurrence-deduplicated list) and the count of staff whose
(staff, date) key is present in the assignment (`available_staff`). -/
def covInfo (specialties : List (String × String)) (a : Assignment) (d : Int) :
    List String × Nat :=
  specialties.foldl (fun acc p =>
    if aMem a (p.1, d) then
      (if pyGet a (p.1, d) = 1 then
        (if acc.1.contains p.2 then acc.1 else acc.1 ++ [p.2])
       else acc.1, acc.2 + 1)
    else acc) ([], 0)

/-- `SpecialtyCoverageConstraint.check` (constraints.py lines 133-157). -/
def specialtyCoverage_check (specialties : List (String × String)) (dates : List Int)
    (min_specialties_per_day : Option Nat) (a : Assignment) : Bool :=
  dates.all (fun d =>
    let ci := covInfo specialties a d
    min (min (scTarget min_specialties_per_day specialties)
             (uniqueSpecCount specialties)) ci.2 ≤ ci.1.length)

/-- `check` dispatch over the constraint union. -/
def Constraint.check : Constraint → Assignment → Bool
  | .minimumStaff ms ds ss, a => minimumStaff_check ms ds ss a
  | .maxConsecutiveDays md ds ss, a => maxConsecutiveDays_check md ds ss a
  | .minRestPeriod mr ds ss, a => minRestPeriod_check mr ds ss a
  | .specialtyCoverage sp ds msd, a => specialtyCoverage_check sp ds msd a
  | .fairWorkload _, _ => true
  | .weekendPreference _ _, _ => true
  | .holidayDistribution _ _ _, _ => true
  | .teamPreference _ _, _ => true

/-! ### RosterCSP (app/rostering/csp.py) -/

structure RosterCSP where
  staff : List String
  dates : List Int
  specialties : List (String × String)
  constraints : List Constraint
  /-- `self.domains`: dict (staff, date) → set of values, as an association
  list; the value sets {0,1} and {0} are the lists [0, 1] and [0]. -/
  domains : List (Var × List Int)
deriving DecidableEq

/-- `RosterCSP.__init__` (csp.py lines 39-51): every (staff, date) pair
gets domain {0, 1}, keys in staff-major insertion order. -/
def mkRosterCSP (staff : List String) (dates : List Int)
    (specialties : List (String × String)) : RosterCSP :=
  { staff := staff
    dates := dates
    specialties := specialties
    constraints := []
    domains := staff.flatMap (fun s => dates.map (fun d => ((s, d), [0, 1]))) }

/-- `self.domains.get((staff, date), {0})` (solver.py lines 37, 196);
direct `self.domains[var]` accesses only ever happen on present keys. -/
def domGet (doms : List (Var × List Int)) (v : Var) : List Int :=
  match doms with
  | [] => [0]
  | p :: t => if p.1 = v then p.2 else domGet t v

/-- `(staff, date) in self.domains`. -/
def domMem (doms : List (Var × List Int)) (v : Var) : Bool :=
  match doms with
  | [] => false
  | p :: t => p.1 = v || domMem t v

/-- Overwrite the domain of a present key (csp.py line 65). -/
def domSet (doms : List (Var × List Int)) (v : Var) (val : List Int) :
    List (Var × List Int) :=
  match doms with
  | [] => []
  | p :: t => if p.1 = v then (v, val) :: t else p :: domSet t v val

/-- `RosterCSP.initialize_domains` (csp.py lines 58-71): for every
leave-schedule entry (date ↦ staff on leave), restrict the domain of each
listed (staff, date) variable that is a key of `self.domains` to {0}. -/
def initialize_domains (csp : RosterCSP) (leave : List (Int × List String)) : RosterCSP :=
  { csp with
    domains := leave.foldl (fun doms p =>
      p.2.foldl (fun doms s =>
        if domMem doms (s, p.1) then domSet doms (s, p.1) [0] else doms) doms)
      csp.domains }

/-- `RosterCSP.get_hard_constraints` (csp.py lines 73-75). -/
def get_hard_constraints (csp : RosterCSP) : List Constraint :=
  csp.constraints.filter (fun c => c.ctype = ConstraintType.hard)

/-- `RosterCSP.is_consistent` (csp.py lines 81-87): all hard constraints'
`check` must pass (early `return False` on the first failure). -/
def is_consistent (csp : RosterCSP) (a : Assignment) : Bool :=
  (get_hard_constraints csp).all (fun c => c.check a)

/-- `RosterCSP.get_unassigned_variables` (csp.py lines 99-106):
staff-major, date-minor order. -/
def get_unassigned_variables (csp : RosterCSP) (a : Assignment) : List Var :=
  (csp.staff.flatMap (fun s => csp.dates.map (fun d => (s, d)))).filter
    (fun v => ¬ aMem a v)

/-- `RosterCSP.is_complete` (csp.py lines 108-110). -/
def is_complete (csp : RosterCSP) (a : Assignment) : Bool :=
  a.length = csp.staff.length * csp.dates.length

/-- `RosterCSP.get_consistent_values` (csp.py lines 112-127): the domain
values whose tentative assignment keeps `is_consistent`. -/
def get_consistent_values (csp : RosterCSP) (v : Var) (a : Assignment) : List Int :=
  (domGet csp.domains v).filter (fun val => is_consistent csp (pyInsert a v val))

/-- `RosterCSP.select_unassigned_variable` (csp.py lines 142-161): the MRV
fold; strict `<` keeps the first variable among ties (`min_values` starts
at infinity, so the first unassigned variable always becomes the initial
best). -/
def select_unassigned_variable (csp : RosterCSP) (a : Assignment) : Option Var :=
  ((get_unassigned_variables csp a).foldl (fun best v =>
      let n := (get_consistent_values csp v a).length
      match best with
      | none => some (n, v)
      | some b => if n < b.1 then some (n, v) else some b) none).map (fun b => b.2)

/-- `RosterCSP.order_domain_values` (csp.py lines 163-173):
`sorted(values, reverse=True)`, i.e. value 1 before 0. -/
def order_domain_values (csp : RosterCSP) (v : Var) : List Int :=
  sortDesc (domGet csp.domains v)

/-! ### Backtracking solver (app/rostering/solver.py lines 108-162)

`_backtrack` recurses with one more variable assigned at every level, so
its recursion depth is bounded by the number of (staff, date) variables;
`solve_with_backtracking` below supplies fuel `#variables + 1`, which that
bound shows is never exhausted.  The mutable `self.iterations` counter is
threaded as state; the result pairs the returned assignment (`None` →
`none`) with the final counter. -/

/-- One iteration of the `for value in self.csp.order_domain_values(...)`
loop of `_backtrack` (solver.py lines 147-160), with the recursive call
abstracted as `recur`: once a result is found the remaining values are
skipped; a value outside the domain is skipped; an extension failing the
consistency check is undone (functionally: the extended assignment is
discarded, matching the `del assignment[var]` of line 160). -/
def btStep (csp : RosterCSP) (recur : Assignment → Nat → Option Assignment × Nat)
    (a : Assignment) (v : Var) (st : Option Assignment × Nat) (val : Int) :
    Option Assignment × Nat :=
  match st with
  | (some r, it) => (some r, it)
  | (none, it) =>
    if (domGet csp.domains v).contains val then
      let a' := pyInsert a v val
      if is_consistent csp a' then recur a' it
      else (none, it)
    else (none, it)

def backtrackGo (csp : RosterCSP) : Nat → Assignment → Nat → Option Assignment × Nat
  | 0, _, iters => (none, iters)
  | fuel + 1, a, iters₀ =>
    let iters := iters₀ + 1
    if is_complete csp a then
      (if is_consistent csp a then some a else none, iters)
    else
      match select_unassigned_variable csp a with
      | none => (none, iters)
      | some v =>
        (order_domain_values csp v).foldl
          (btStep csp (backtrackGo csp fuel) a v) (none, iters)

/-- `RosterSolver.solve_with_backtracking` (solver.py lines 108-129):
pre-assign 0 to every variable whose domain is {0} (iterating
`self.csp.domains.items()` in insertion order), then search.  Returns the
result together with the final iteration count. -/
def solve_with_backtracking (csp : RosterCSP) : Option Assignment × Nat :=
  let init := csp.domains.foldl (fun a p =>
    if p.2 = [0] then pyInsert a p.1 0 else a) []
  backtrackGo csp (csp.staff.length * csp.dates.length + 1) init 0

/-! ### ILP formulation of MaxConsecutiveDays
(solver.py, `_add_hard_constraint_to_model`, lines 258-270)

`solve_with_pulp` (lines 34-44) creates a binary decision variable for
(staff, date) exactly when `1 in self.csp.domains.get((staff, date), {0})`;
otherwise the entry of `x` is the constant 0.  For every staff member and
every window start in `range(len(dates) - max_days)` the code collects the
decision variables of the `max_days + 1` consecutive dates and, when the
collection is nonempty, posts `sum <= max_days`.  The external optimizer
itself is not modelled; its output is any 0/1 assignment that fixes
unavailable pairs to 0 and satisfies the posted inequalities. -/

/-- Whether (staff, date) gets a real decision variable (solver.py line 37). -/
def availVar (csp : RosterCSP) (v : Var) : Bool :=
  (domGet csp.domains v).contains 1

/-- The decision variables collected for the window of `max_days + 1`
consecutive dates starting at index `start` (solver.py lines 262-266). -/
def ilpWindowVars (csp : RosterCSP) (max_days : Nat) (s : String) (start : Nat) :
    List Var :=
  ((List.range (max_days + 1)).map (fun i => (s, csp.dates.getD (start + i) 0))).filter
    (fun v => availVar csp v)

/-- The (staff, window-start) pairs for which solver.py lines 268-270
actually post a constraint (windows whose variable list is empty are
skipped). -/
def ilpMaxConsecWindows (csp : RosterCSP) (max_days : Nat) : List (String × Nat) :=
  csp.staff.flatMap (fun s =>
    (List.range (csp.dates.length - max_days)).filterMap (fun start =>
      if (ilpWindowVars csp max_days s start).isEmpty then none else some (s, start)))

/-- The posted linear inequality `lpSum(consecutive_vars) <= max_days`,
evaluated on an assignment. -/
def ilpWindowHolds (csp : RosterCSP) (max_days : Nat) (a : Assignment)
    (w : String × Nat) : Bool :=
  ((ilpWindowVars csp max_days w.1 w.2).map (fun v => pyGet a v)).sum ≤ (max_days : Int)

/-- An assignment satisfies every MaxConsecutiveDays window constraint the
ILP model posts. -/
def satisfiesIlpMaxConsec (csp : RosterCSP) (max_days : Nat) (a : Assignment) : Bool :=
  (ilpMaxConsecWindows csp max_days).all (fun w => ilpWindowHolds csp max_days a w)

/-! ### format_solution_as_roster (utils.py lines 293-354) -/

/-- Increment `staff_work_count[s]` with `dict.get(s, 0) + 1` semantics
(utils.py lines 332-335). -/
def assocIncr (l : List (String × Nat)) (s : String) : List (String × Nat) :=
  match l with
  | [] => [(s, 1)]
  | p :: t => if p.1 = s then (p.1, p.2 + 1) :: t else p :: assocIncr t s

/-- `specialties[staff]` lookup of utils.py line 305 (dict built from the
staff/specialty columns). -/
def specLookup (specialties : List (String × String)) (s : String) : String :=
  ((specialties.find? (fun p => p.1 = s)).map (fun p => p.2)).getD ""

/-- `format_solution_as_roster` (utils.py lines 293-354).  Mirrors the
source: per date, the assigned staff are the members of `staff_list` whose
solution value is 1; `available_count` counts staff with solution value
≥ 0 (i.e. everything, as written on line 324); `days_understaffed`
compares against the hard-coded 2 of line 338 ("Assuming min 2");
`coverage_percentage` divides by `len(dates)` and raises on an empty date
list (the `.error` case).  `list(set(...))` orders are modelled as
first-occurrence order. -/
def format_solution_as_roster (solution : Assignment) (dates : List Int)
    (staff_list : List String) (specialties : List (String × String))
    (hol : Int → Option String) : Except String RosterResult :=
  let roster := dates.map (fun d =>
    let assigned := staff_list.filter (fun s => pyGet solution (s, d) = 1)
    let h := holidayInfo hol d
    (d, ({ staff := assigned
           specialties := pyUnique (assigned.map (fun s => specLookup specialties s))
           available_count :=
             (staff_list.filter (fun s => 0 ≤ pyGet solution (s, d))).length
           is_weekend := decide (5 ≤ weekdayOf d)
           is_holiday := h.1
           holiday_name := h.2.1
           is_in_lieu := h.2.2 } : DayEntry)))
  let staff_work_count := solution.foldl (fun acc p =>
    if p.2 = 1 then assocIncr acc p.1.1 else acc) []
  let total := dates.length
  if total = 0 then
    .error "ZeroDivisionError"
  else
    .ok
      { roster := roster
        stats :=
          { total_days := total
            days_understaffed := (roster.filter (fun p => p.2.staff.length < 2)).length
            coverage_percentage :=
              (((total : ℚ) -
                ((roster.filter (fun p => p.2.staff.length < 2)).length : ℚ))
                / (total : ℚ)) * 100
            staff_work_distribution := staff_work_count
            weekend_days := (roster.filter (fun p => p.2.is_weekend)).length
            holiday_days := (roster.filter (fun p => p.2.is_holiday)).length }
        staff_list := staff_list
        specialties := pyUnique (specialties.map (fun p => p.2)) }

/-! ### generate_roster_advanced (utils.py lines 179-261) -/

/-- Append `staff` to `leave_schedule[date]` with dict-of-lists semantics
(utils.py lines 284-287). -/
def leaveSchedAdd (l : List (Int × List String)) (d : Int) (s : String) :
    List (Int × List String) :=
  match l with
  | [] => [(d, [s])]
  | p :: t => if p.1 = d then (p.1, p.2 ++ [s]) :: t else p :: leaveSchedAdd t d s

/-- `extract_leave_schedule` (utils.py lines 264-290): date ↦ staff on
leave that date, keys in first-encounter order. -/
def extract_leave_schedule (df : List Row) : List (Int × List String) :=
  df.foldl (fun acc r =>
    (leaveInterval r).foldl (fun acc d => leaveSchedAdd acc d r.staff) acc) []

/-- `dict(zip(df[staff_col], df[specialty_col]))` (utils.py lines 192-195):
later rows overwrite earlier keys. -/
def specialtiesDict (df : List Row) : List (String × String) :=
  df.foldl (fun acc r =>
    match acc.find? (fun p => p.1 = r.staff) with
    | some _ => acc.map (fun p => if p.1 = r.staff then (r.staff, r.specialty) else p)
    | none => acc ++ [(r.staff, r.specialty)]) []

/-- The constraint classes instantiated by `generate_roster_advanced`. -/
inductive CtorId where
  | minimumStaffC
  | maxConsecutiveDaysC
  | specialtyCoverageC
  | fairWorkloadC
  | weekendPreferenceC
  | holidayDistributionC
deriving DecidableEq

/-- The number of required positional parameters (no default) of each
constraint class `__init__` in constraints.py, `self` excluded:
`MinimumStaffConstraint(min_staff, dates, staff)` (line 13),
`MaxConsecutiveDaysConstraint(max_days, dates, staff)` (line 47),
`SpecialtyCoverageConstraint(specialties, dates, min_specialties_per_day=None)`
(lines 115-116), `FairWorkloadConstraint(staff, weight=10.0, max_variance=2.0)`
(line 163), `WeekendPreferenceConstraint(preferences, dates, weight=5.0)`
(line 201), `HolidayDistributionConstraint(holidays, historical_counts,
staff, weight=8.0)` (lines 231-232). -/
def requiredPositional : CtorId → Nat
  | .minimumStaffC => 3
  | .maxConsecutiveDaysC => 3
  | .specialtyCoverageC => 2
  | .fairWorkloadC => 1
  | .weekendPreferenceC => 2
  | .holidayDistributionC => 3

/-- A Python constructor call supplying `supplied` positional arguments:
raises `TypeError` when required positional parameters are missing. -/
def ctorCall (c : CtorId) (supplied : Nat) : Except String Unit :=
  if supplied < requiredPositional c then
    .error "TypeError: __init__ missing required positional arguments"
  else .ok ()

/-- The body of the `try` block of `generate_roster_advanced`
(utils.py lines 182-256).  The constructor calls on lines 210-215, 230 and
240 supply only the argument counts written at those call sites (1, 1, 1,
0, 1 and 2); each is modelled by `ctorCall`, and the first failing call
aborts the body with the `TypeError`, exactly as in Python — so the
database reads, `initialize_domains` and the solve never execute.  The
external PuLP optimizer is abstracted as `pulpOracle` (its result when the
flow were to reach it); the `Sum` tags which return statement produced the
result (`inl` = greedy fallback of line 256, `inr` = formatter of line 252). -/
def advancedBody (pulpOracle : Option Assignment) (df : List Row) (minStaff : Nat)
    (rosterStart rosterEnd : Int) (hol : Int → Option String) :
    Except String (RosterResult ⊕ RosterResult) := do
  let staff_list := pyUnique (df.map (fun r => r.staff))
  let specs := specialtiesDict df
  let dates := intRange rosterStart rosterEnd
  let csp0 := mkRosterCSP staff_list dates specs
  ctorCall CtorId.minimumStaffC 1        -- line 210: MinimumStaffConstraint(min_staff)
  ctorCall CtorId.maxConsecutiveDaysC 1  -- line 211: MaxConsecutiveDaysConstraint(max)
  ctorCall CtorId.specialtyCoverageC 1   -- line 212: SpecialtyCoverageConstraint(specialties)
  ctorCall CtorId.fairWorkloadC 0        -- line 215: FairWorkloadConstraint()
  ctorCall CtorId.weekendPreferenceC 1   -- line 230: WeekendPreferenceConstraint(prefs)
  (if (dates.filter (fun d => (hol d).isSome)).length ≠ 0 then
    ctorCall CtorId.holidayDistributionC 2  -- line 240, only when holidays_set nonempty
   else pure ())
  let leave := extract_leave_schedule df
  let csp1 := initialize_domains csp0 leave
  match pulpOracle with
  | some sol =>
    let _ := csp1
    (format_solution_as_roster sol dates staff_list specs hol).map Sum.inr
  | none =>
    (generate_roster_logic df minStaff rosterStart rosterEnd hol).map Sum.inl

/-- `generate_roster_advanced` (utils.py lines 179-261): run the body; the
`except` handler (lines 258-261) falls back to `generate_roster_logic`
(whose own exception, if any, propagates). -/
def generate_roster_advanced (pulpOracle : Option Assignment) (df : List Row)
    (minStaff : Nat) (rosterStart rosterEnd : Int) (hol : Int → Option String) :
    Except String (RosterResult ⊕ RosterResult) :=
  match advancedBody pulpOracle df minStaff rosterStart rosterEnd hol with
  | .ok res => .ok res
  | .error _ => (generate_roster_logic df minStaff rosterStart rosterEnd hol).map Sum.inl

/-! ### Basic lemmas about the dict / sort / dedup models -/

theorem pyGet_pyInsert_same (a : Assignment) (v : Var) (x : Int) :
    pyGet (pyInsert a v x) v = x := by
  induction a with
  | nil => simp [pyInsert, pyGet]
  | cons p t ih =>
    by_cases h : p.1 = v
    · simp [pyInsert, h, pyGet]
    · simp [pyInsert, h, pyGet, ih]

theorem pyGet_pyInsert_other (a : Assignment) (v w : Var) (x : Int) (h : w ≠ v) :
    pyGet (pyInsert a v x) w = pyGet a w := by
  have h' : v ≠ w := fun hh => h hh.symm
  induction a with
  | nil => simp [pyInsert, pyGet, h']
  | cons p t ih =>
    obtain ⟨pk, pv⟩ := p
    by_cases hp : pk = v
    · subst hp
      simp [pyInsert, pyGet, h']
    · simp only [pyInsert, hp, if_false, if_neg hp]
      by_cases hw : pk = w
      · simp [pyGet, hw]
      · simp [pyGet, hw, ih]

theorem pyGet_eq_zero_of_not_aMem (a : Assignment) (v : Var) (h : aMem a v = false) :
    pyGet a v = 0 := by
  induction a with
  | nil => simp [pyGet]
  | cons p t ih =>
    simp only [aMem, Bool.or_eq_false_iff, decide_eq_false_iff_not] at h
    simp [pyGet, h.1, ih h.2]

theorem pyInsert_length_of_not_aMem (a : Assignment) (v : Var) (x : Int)
    (h : aMem a v = false) : (pyInsert a v x).length = a.length + 1 := by
  induction a with
  | nil => simp [pyInsert]
  | cons p t ih =>
    simp only [aMem, Bool.or_eq_false_iff, decide_eq_false_iff_not] at h
    simp [pyInsert, h.1, ih h.2]

theorem aMem_pyInsert (a : Assignment) (v w : Var) (x : Int) :
    aMem (pyInsert a v x) w = ((w = v) || aMem a w) := by
  induction a with
  | nil => simp [pyInsert, aMem, eq_comm]
  | cons p t ih =>
    obtain ⟨pk, pv⟩ := p
    by_cases hv : w = v <;> by_cases hpk : pk = w <;> by_cases hp : pk = v <;>
      · try simp_all [pyInsert, aMem, ih]

theorem mem_pyInsertSorted {α : Type} (key : α → Nat) (x y : α) (l : List α) :
    y ∈ pyInsertSorted key x l ↔ y = x ∨ y ∈ l := by
  induction l with
  | nil => simp [pyInsertSorted]
  | cons z t ih =>
    by_cases h : key z ≤ key x
    · rw [pyInsertSorted, if_pos h]
      simp only [List.mem_cons, ih]
      tauto
    · rw [pyInsertSorted, if_neg h]
      simp [List.mem_cons]

theorem pyInsertSorted_perm {α : Type} (key : α → Nat) (x : α) (l : List α) :
    List.Perm (pyInsertSorted key x l) (x :: l) := by
  induction l with
  | nil => simp [pyInsertSorted]
  | cons z t ih =>
    by_cases h : key z ≤ key x
    · rw [pyInsertSorted, if_pos h]
      exact (ih.cons z).trans (List.Perm.swap x z t)
    · rw [pyInsertSorted, if_neg h]

theorem pyStableSortBy_perm {α : Type} (key : α → Nat) (l : List α) :
    List.Perm (pyStableSortBy key l) l := by
  suffices h : ∀ (l acc : List α),
      List.Perm (l.foldl (fun a x => pyInsertSorted key x a) acc) (acc ++ l) by
    simpa using h l []
  intro l
  induction l with
  | nil => simp
  | cons x t ih =>
    intro acc
    have h1 := ih (pyInsertSorted key x acc)
    have h2 : List.Perm (pyInsertSorted key x acc ++ t) ((x :: acc) ++ t) :=
      (pyInsertSorted_perm key x acc).append_right t
    have h3 : List.Perm (x :: (acc ++ t)) (acc ++ x :: t) := List.perm_middle.symm
    exact (h1.trans h2).trans h3

theorem mem_pyStableSortBy {α : Type} (key : α → Nat) (x : α) (l : List α) :
    x ∈ pyStableSortBy key l ↔ x ∈ l :=
  (pyStableSortBy_perm key l).mem_iff

theorem mem_pyUnique {α : Type} [DecidableEq α] (x : α) (l : List α) :
    x ∈ pyUnique l ↔ x ∈ l := by
  suffices h : ∀ (l acc : List α),
      (x ∈ l.foldl (fun acc y => if acc.contains y then acc else acc ++ [y]) acc
        ↔ x ∈ acc ∨ x ∈ l) by
    simpa [pyUnique] using h l []
  intro l
  induction l with
  | nil => simp
  | cons y t ih =>
    intro acc
    simp only [List.foldl_cons]
    by_cases hy : acc.contains y = true
    · rw [if_pos hy, ih acc]
      have hmem : y ∈ acc := List.elem_iff.mp hy
      constructor
      · rintro (h | h)
        · exact Or.inl h
        · exact Or.inr (List.mem_cons_of_mem _ h)
      · rintro (h | h)
        · exact Or.inl h
        · rcases List.mem_cons.mp h with h | h
          · exact Or.inl (by rw [h]; exact hmem)
          · exact Or.inr h
    · rw [if_neg hy, ih (acc ++ [y])]
      simp only [List.mem_append, List.mem_singleton, List.mem_cons]
      tauto

theorem pyUnique_nodup {α : Type} [DecidableEq α] (l : List α) :
    (pyUnique l).Nodup := by
  suffices h : ∀ (l acc : List α), acc.Nodup →
      (l.foldl (fun acc y => if acc.contains y then acc else acc ++ [y]) acc).Nodup by
    exact h l [] List.nodup_nil
  intro l
  induction l with
  | nil => exact fun acc h => h
  | cons y t ih =>
    intro acc hacc
    simp only [List.foldl_cons]
    by_cases hy : acc.contains y = true
    · rw [if_pos hy]
      exact ih acc hacc
    · rw [if_neg hy]
      refine ih (acc ++ [y]) ?_
      rw [List.nodup_append]
      refine ⟨hacc, List.nodup_singleton y, ?_⟩
      intro z hz hzy
      simp only [List.mem_singleton] at hzy
      subst hzy
      exact hy (List.elem_iff.mpr hz)

/-! ### Concrete instances used by the claim theorems -/

/-- An always-empty holiday calendar. -/
def holNone : Int → Option String := fun _ => none

/-- The staff lists of a roster result, per day (empty on error). -/
def rosterStaffLists (x : Except String RosterResult) : List (List String) :=
  match x with
  | .ok r => r.roster.map (fun p => p.2.staff)
  | .error _ => []

/-- Leave table of the specification scenario: 3 staff
(A: Cardiology, B: Cardiology, C: Surgery), all leave outside the roster
window (day 0), i.e. no leave during the 1-day roster on day 100. -/
def dfScenario : List Row :=
  [ ⟨"A", "Cardiology", some 0, none⟩
  , ⟨"B", "Cardiology", some 0, none⟩
  , ⟨"C", "Surgery", some 0, none⟩ ]

/-- CSP with one staff member, three dates and no constraints. -/
def cspFree3 : RosterCSP := mkRosterCSP ["A"] [0, 1, 2] [("A", "X")]

/-- CSP with one staff member, two dates, and a MinimumStaff(1) hard
constraint over both dates. -/
def cspMin1 : RosterCSP :=
  { mkRosterCSP ["A"] [0, 1] [("A", "X")] with
    constraints := [Constraint.minimumStaff 1 [0, 1] ["A"]] }

/-- A partial assignment for `cspMin1`: day 0 assigned, day 1 not yet. -/
def partialMin1 : Assignment := [(("A", 0), 1)]

/-- The complete assignment for `cspMin1` extending `partialMin1`. -/
def fullMin1 : Assignment := [(("A", 0), 1), (("A", 1), 1)]

/-! ### C9 -/

/-- C9: on the scenario of 3 staff (A: Cardiology, B: Cardiology,
C: Surgery), no leave in the window, min_staff_per_day = 2, a 1-day roster
and 2 distinct specialties, the greedy selection is exactly one Cardiology
and one Surgery member — the set {A, C} (produced in order [C, A]:
specialties are filled smallest group first, and A is the Cardiology
member by the zero-workload tie-break) — and B is never selected. -/
theorem C9_greedy_specialty_scenario :
    rosterStaffLists (generate_roster_logic dfScenario 2 100 100 holNone)
        = [["C", "A"]] ∧
    (rosterStaffLists (generate_roster_logic dfScenario 2 100 100 holNone)).all
        (fun day => day.contains "A" && day.contains "C" && !day.contains "B") = true := by
  constructor
  · rfl
  · rfl

/-! ### C2 -/

/-- C2 counterexample: the hard constraints are *not* provisionally
satisfied on partial assignments.  For `cspMin1`, the partial assignment
`partialMin1` (its date-1 variable is unassigned) is rejected by
`is_consistent`, although its completion `fullMin1` is complete, agrees
with it on the assigned variable, and satisfies every hard constraint:
`MinimumStaffConstraint.check` counts unassigned variables as 0. -/
theorem C2_counterexample :
    is_consistent cspMin1 partialMin1 = false ∧
    aMem partialMin1 ("A", 1) = false ∧
    is_complete cspMin1 fullMin1 = true ∧
    is_consistent cspMin1 fullMin1 = true ∧
    pyGet fullMin1 ("A", 0) = pyGet partialMin1 ("A", 0) := by
  refine ⟨rfl, rfl, rfl, rfl, rfl⟩

/-- C2 (amended): `is_consistent` returns true iff every hard constraint's
`check` passes against the assignment exactly as given; the checks read
unassigned variables as 0 (`assignment.get(..., 0)`) rather than treating
incompletely-assigned constraints as provisionally satisfied, so a partial
assignment can be rejected (e.g. `partialMin1`) even though a completion
(`fullMin1`) satisfies every hard constraint. -/
theorem C2_is_consistent_iff_hard_checks :
    (∀ (csp : RosterCSP) (a : Assignment),
      is_consistent csp a = true ↔
        ∀ c ∈ get_hard_constraints csp, c.check a = true) ∧
    (is_consistent cspMin1 partialMin1 = false ∧
      is_complete cspMin1 fullMin1 = true ∧
      is_consistent cspMin1 fullMin1 = true) := by
  constructor
  · intro csp a
    simp [is_consistent, List.all_eq_true]
  · exact ⟨rfl, rfl, rfl⟩

/-- C2 witness: the characterization applied at `cspMin1` and `fullMin1`. -/
theorem C2_witness : is_consistent cspMin1 fullMin1 = true :=
  (C2_is_consistent_iff_hard_checks.1 cspMin1 fullMin1).mpr (by decide)

/-! ### C3 (counterexample) -/

/-- C3 counterexample: with an iteration cutoff of 3 supplied, the claim
says the solver stops and reports failure once the cutoff is exceeded.  On
`cspFree3` the backtracking solver performs 4 iterations (> 3) and still
returns a solution: no cutoff of any kind is checked at search nodes
(`solve_with_backtracking` takes no cutoff input at all). -/
theorem C3_counterexample :
    ¬ ((solve_with_backtracking cspFree3).2 ≤ 3 ∨
       (solve_with_backtracking cspFree3).1 = none) := by
  decide

/-! ### C8 -/

/-- The per-date accumulator of `SpecialtyCoverageConstraint.check` in
closed form: the covered-specialty set is the deduplicated list of
specialties of staff assigned 1 on the date, and `available_staff` counts
the staff whose (staff, date) key is *present in the assignment dict*
(not the staff who are off leave). -/
theorem covInfo_eq (specialties : List (String × String)) (a : Assignment) (d : Int) :
    covInfo specialties a d =
      (pyUnique ((specialties.filter (fun p => pyGet a (p.1, d) = 1)).map (fun p => p.2)),
       specialties.countP (fun p => aMem a (p.1, d))) := by
  suffices h : ∀ (l : List (String × String)) (cov : List String) (n : Nat),
      l.foldl (fun acc p =>
        if aMem a (p.1, d) then
          (if pyGet a (p.1, d) = 1 then
            (if acc.1.contains p.2 then acc.1 else acc.1 ++ [p.2])
           else acc.1, acc.2 + 1)
        else acc) (cov, n) =
      (((l.filter (fun p => pyGet a (p.1, d) = 1)).map (fun p => p.2)).foldl
          (fun c x => if c.contains x then c else c ++ [x]) cov,
       n + l.countP (fun p => aMem a (p.1, d))) by
    simpa [covInfo, pyUnique] using h specialties [] 0
  intro l
  induction l with
  | nil => intro cov n; simp
  | cons p t ih =>
    intro cov n
    by_cases hm : aMem a (p.1, d) = true
    · by_cases hg : pyGet a (p.1, d) = 1
      · simp only [List.foldl_cons, hm, if_pos, hg, if_true, List.filter_cons,
          List.countP_cons, decide_eq_true_eq, List.map_cons, ih, hm]
        rw [Prod.mk.injEq]
        exact ⟨rfl, by omega⟩
      · simp only [List.foldl_cons, hm, if_pos, hg, if_false, List.filter_cons,
          List.countP_cons, List.map_cons, ih]
        rw [Prod.mk.injEq]
        exact ⟨rfl, by omega⟩
    · have hm' : aMem a (p.1, d) = false := by
        cases h : aMem a (p.1, d)
        · rfl
        · exact absurd h hm
      have hg : pyGet a (p.1, d) = 0 := pyGet_eq_zero_of_not_aMem _ _ hm'
      have hg1 : ¬ pyGet a (p.1, d) = 1 := by rw [hg]; omega
      simp only [List.foldl_cons, hm', Bool.false_eq_true, if_false, List.filter_cons,
        List.countP_cons, List.map_cons, ih, hg1, hm, decide_eq_true_eq]
      simp [hg1, hm]

/-- Modelled from the spec: the SpecialtyCoverage rule as the spec words
it — "for every date, the number of distinct specialties represented
among assigned staff meets a target, capped by the number of distinct
specialties actually available that day", where a staff member is
available when not on leave (`onLeave`).  This definition exists only for
comparison against the source's `specialtyCoverage_check`; the source
caps by the count of staff keys present in the assignment instead. -/
def specialtyCoverage_check_specStated (specialties : List (String × String))
    (dates : List Int) (min_specialties_per_day : Option Nat)
    (onLeave : String → Int → Bool) (a : Assignment) : Bool :=
  dates.all (fun d =>
    min (scTarget min_specialties_per_day specialties)
        ((pyUnique ((specialties.filter (fun p => ¬ onLeave p.1 d)).map
            (fun p => p.2))).length)
      ≤ (pyUnique ((specialties.filter (fun p => pyGet a (p.1, d) = 1)).map
            (fun p => p.2))).length)

/-- Staff A, B: Cardiology; C: Surgery. -/
def spCoverEx : List (String × String) :=
  [("A", "Cardiology"), ("B", "Cardiology"), ("C", "Surgery")]

/-- Full single-day assignment: A works, B and C (C is on leave) do not. -/
def aCoverEx : Assignment := [(("A", 0), 1), (("B", 0), 0), (("C", 0), 0)]

/-- C is on leave on day 0. -/
def leaveCoverEx : String → Int → Bool := fun s d => s = "C" && d = 0

/-- A full single-day assignment covering both specialties. -/
def aCoverOk : Assignment := [(("A", 0), 1), (("B", 0), 0), (("C", 0), 1)]

/-- C8 counterexample: with staff A, B (Cardiology) and C (Surgery), C on
leave on day 0 (assigned 0 accordingly) and A assigned, only one specialty
is available that day, so the claim's requirement (target capped by the
number of distinct specialties of off-leave staff, here 1) is met — yet
`SpecialtyCoverageConstraint.check` returns `False`: it caps the target by
the number of (staff, date) keys present in the assignment (3 here), not
by the distinct specialties actually available. -/
theorem C8_counterexample :
    specialtyCoverage_check spCoverEx [0] none aCoverEx = false ∧
    specialtyCoverage_check_specStated spCoverEx [0] none leaveCoverEx aCoverEx = true ∧
    pyGet aCoverEx ("C", 0) = 0 := by
  refine ⟨rfl, rfl, rfl⟩

/-- C8 (amended): `SpecialtyCoverageConstraint.check` passes iff, for every
date, the number of distinct specialties among staff assigned 1 is at
least the configured target capped both by the total number of distinct
specialties and by the number of staff whose (staff, date) pair is present
in the assignment — a count of assignment keys, not of distinct available
(off-leave) specialties. -/
theorem C8_specialtyCoverage_check_iff (specialties : List (String × String))
    (dates : List Int) (min_specialties_per_day : Option Nat) (a : Assignment) :
    specialtyCoverage_check specialties dates min_specialties_per_day a = true ↔
      ∀ d ∈ dates,
        min (min (scTarget min_specialties_per_day specialties)
                 (uniqueSpecCount specialties))
            (specialties.countP (fun p => aMem a (p.1, d)))
          ≤ (pyUnique ((specialties.filter (fun p => pyGet a (p.1, d) = 1)).map
                (fun p => p.2))).length := by
  unfold specialtyCoverage_check
  rw [List.all_eq_true]
  constructor
  · intro h d hd
    have := h d hd
    rw [covInfo_eq] at this
    simpa using this
  · intro h d hd
    rw [covInfo_eq]
    simpa using h d hd

/-- C8 witness: the characterization applied at a concrete instance where
both specialties are covered. -/
theorem C8_witness :
    specialtyCoverage_check spCoverEx [0] none aCoverOk = true :=
  (C8_specialtyCoverage_check_iff spCoverEx [0] none aCoverOk).mpr (by decide)

/-! ### C4 -/

/-- C4: `generate_roster_advanced` always returns exactly the result of the
greedy path `generate_roster_logic` (tagged `Sum.inl` = the greedy-fallback
return of utils.py line 256/261), for every input and every possible
behaviour of the external optimizer: the CSP setup's very first constraint
construction, `MinimumStaffConstraint(rules['min_staff_per_day'])`
(utils.py line 210), supplies 1 of 3 required positional arguments and
raises `TypeError` before any solving, and the exception handler falls
back to `generate_roster_logic`.  In particular, whenever the greedy path
returns a result, the advanced path returns that same result, and the ILP
formatter path (`Sum.inr`) is unreachable. -/
theorem C4_advanced_falls_back_to_greedy (pulpOracle : Option Assignment)
    (df : List Row) (minStaff : Nat) (rosterStart rosterEnd : Int)
    (hol : Int → Option String) :
    generate_roster_advanced pulpOracle df minStaff rosterStart rosterEnd hol =
      (generate_roster_logic df minStaff rosterStart rosterEnd hol).map Sum.inl := by
  have hbody : advancedBody pulpOracle df minStaff rosterStart rosterEnd hol =
      .error "TypeError: __init__ missing required positional arguments" := rfl
  unfold generate_roster_advanced
  rw [hbody]

/-! ### C1 -/

theorem mem_pickBySpecialty (df : List Row) (wc : String → Nat) (minStaff : Nat)
    (sortedAvail : List String) (x : String)
    (hx : x ∈ (pickBySpecialty df wc minStaff sortedAvail).1) : x ∈ sortedAvail := by
  unfold pickBySpecialty at hx
  suffices h : ∀ (keys : List String) (acc : List String × List String),
      (∀ y ∈ acc.1, y ∈ sortedAvail) →
      ∀ y ∈ (keys.foldl (fun acc sp =>
        if acc.1.length < minStaff then
          match pyStableSortBy wc (groupOf df sortedAvail sp) with
          | [] => acc
          | s :: _ => (acc.1 ++ [s], acc.2 ++ [sp])
        else acc) acc).1, y ∈ sortedAvail by
    exact h _ ([], []) (by simp) x hx
  intro keys
  induction keys with
  | nil => intro acc hacc; exact hacc
  | cons sp t ih =>
    intro acc hacc
    simp only [List.foldl_cons]
    by_cases hlen : acc.1.length < minStaff
    · rw [if_pos hlen]
      cases hsort : pyStableSortBy wc (groupOf df sortedAvail sp) with
      | nil => exact ih acc hacc
      | cons s rest =>
        refine ih _ ?_
        intro y hy
        simp only [List.mem_append, List.mem_singleton] at hy
        rcases hy with hy | hy
        · exact hacc y hy
        · subst hy
          have hs : y ∈ pyStableSortBy wc (groupOf df sortedAvail sp) := by
            rw [hsort]; exact List.mem_cons_self _ _
          rw [mem_pyStableSortBy] at hs
          exact List.mem_of_mem_filter hs
    · rw [if_neg hlen]
      exact ih acc hacc

theorem mem_selectForDay (df : List Row) (allStaff allSpecialties : List String)
    (wc : String → Nat) (minStaff : Nat) (d : Int) (x : String)
    (hx : x ∈ (selectForDay df allStaff allSpecialties wc minStaff d).1) :
    x ∈ availableStaffOn df allStaff d := by
  unfold selectForDay at hx
  by_cases hb : allSpecialties.length ≤
      (pyStableSortBy wc (availableStaffOn df allStaff d)).length
  · rw [if_pos hb] at hx
    simp only [List.mem_append] at hx
    rcases hx with hx | hx
    · have := mem_pickBySpecialty df wc minStaff _ x hx
      rwa [mem_pyStableSortBy] at this
    · have h1 := List.mem_of_mem_take hx
      rw [mem_pyStableSortBy] at h1
      have h2 := List.mem_of_mem_filter h1
      rwa [mem_pyStableSortBy] at h2
  · rw [if_neg hb] at hx
    have h1 := List.mem_of_mem_take hx
    rwa [mem_pyStableSortBy] at h1

theorem mem_availableStaffOn (df : List Row) (allStaff : List String) (d : Int)
    (x : String) (hx : x ∈ availableStaffOn df allStaff d) :
    x ∈ allStaff ∧ (leaveDates df x).contains d = false := by
  unfold availableStaffOn at hx
  refine ⟨List.mem_of_mem_filter hx, ?_⟩
  have := List.of_mem_filter hx
  simp only [isAvailable, decide_eq_true_eq] at this
  cases h : (leaveDates df x).contains d
  · rfl
  · exact absurd h this

/-- The per-day fold never schedules staff on leave. -/
theorem roster_fold_no_leave (df : List Row) (allStaff allSpecialties : List String)
    (minStaff : Nat) (hol : Int → Option String) (days : List Int) (st : GenState)
    (hst : ∀ p ∈ st.roster, ∀ s ∈ p.2.staff, (leaveDates df s).contains p.1 = false) :
    ∀ p ∈ (days.foldl (dayStep df allStaff allSpecialties minStaff hol) st).roster,
      ∀ s ∈ p.2.staff, (leaveDates df s).contains p.1 = false := by
  induction days generalizing st with
  | nil => exact hst
  | cons d t ih =>
    simp only [List.foldl_cons]
    refine ih _ ?_
    intro p hp s hs
    simp only [dayStep, List.mem_append, List.mem_singleton] at hp
    rcases hp with hp | hp
    · exact hst p hp s hs
    · subst hp
      simp only at hs
      exact (mem_availableStaffOn df allStaff d s
        (mem_selectForDay df allStaff allSpecialties st.wc minStaff d s hs)).2

/-- The roster list of a generation result (none on error). -/
def rosterOf (x : Except String RosterResult) : Option (List (Int × DayEntry)) :=
  match x with
  | .ok r => some r.roster
  | .error _ => none

theorem generate_roster_logic_roster (df : List Row) (minStaff : Nat)
    (rosterStart rosterEnd : Int) (hol : Int → Option String)
    (R : List (Int × DayEntry))
    (h : rosterOf (generate_roster_logic df minStaff rosterStart rosterEnd hol) = some R) :
    R = ((intRange rosterStart rosterEnd).foldl
      (dayStep df (pyUnique (df.map (fun r => r.staff)))
        (pyUnique (df.map (fun r => r.specialty))) minStaff hol)
      { roster := [], wc := fun _ => 0 }).roster := by
  unfold generate_roster_logic at h
  by_cases hz : ((intRange rosterStart rosterEnd).foldl
      (dayStep df (pyUnique (df.map (fun r => r.staff)))
        (pyUnique (df.map (fun r => r.specialty))) minStaff hol)
      { roster := [], wc := fun _ => 0 }).roster.length = 0
  · rw [if_pos hz] at h
    exact absurd h (by simp [rosterOf])
  · rw [if_neg hz] at h
    simp only [rosterOf, Option.some.injEq] at h
    exact h.symm

theorem domGet_domSet_same (doms : List (Var × List Int)) (v : Var) (val : List Int)
    (h : domMem doms v = true) : domGet (domSet doms v val) v = val := by
  induction doms with
  | nil => simp [domMem] at h
  | cons p t ih =>
    by_cases hp : p.1 = v
    · simp [domSet, hp, domGet]
    · simp only [domMem, Bool.or_eq_true, decide_eq_true_eq] at h
      rcases h with h | h
      · exact absurd h hp
      · simp [domSet, hp, domGet, ih h]

theorem domGet_domSet_ne (doms : List (Var × List Int)) (v u : Var) (val : List Int)
    (h : u ≠ v) : domGet (domSet doms v val) u = domGet doms u := by
  have h' : ¬ v = u := fun hh => h hh.symm
  induction doms with
  | nil => simp [domSet]
  | cons p t ih =>
    by_cases hp : p.1 = v
    · rw [domSet, if_pos hp]
      show (if v = u then val else domGet t u) = _
      rw [if_neg h', domGet, hp, if_neg h']
    · rw [domSet, if_neg hp, domGet, domGet, ih]

theorem domMem_domSet (doms : List (Var × List Int)) (v u : Var) (val : List Int) :
    domMem (domSet doms v val) u = domMem doms u := by
  induction doms with
  | nil => simp [domSet]
  | cons p t ih =>
    by_cases hp : p.1 = v
    · rw [domSet, if_pos hp, domMem, domMem, hp]
    · rw [domSet, if_neg hp, domMem, domMem, ih]

theorem initStep_preserves (doms : List (Var × List Int)) (dd : Int) (s' : String)
    (v : Var) (h : domGet doms v = [0]) :
    domGet (if domMem doms (s', dd) then domSet doms (s', dd) [0] else doms) v = [0] := by
  by_cases hm : domMem doms (s', dd) = true
  · rw [if_pos hm]
    by_cases hv : v = (s', dd)
    · subst hv
      exact domGet_domSet_same _ _ _ hm
    · rw [domGet_domSet_ne _ _ _ _ hv]
      exact h
  · rw [if_neg hm]
    exact h

theorem initStep_domMem (doms : List (Var × List Int)) (dd : Int) (s' : String)
    (u : Var) :
    domMem (if domMem doms (s', dd) then domSet doms (s', dd) [0] else doms) u =
      domMem doms u := by
  by_cases hm : domMem doms (s', dd) = true
  · rw [if_pos hm, domMem_domSet]
  · rw [if_neg hm]

theorem initInner_preserves (dd : Int) (ss : List String)
    (doms : List (Var × List Int)) (v : Var) (h : domGet doms v = [0]) :
    domGet (ss.foldl (fun doms s' =>
      if domMem doms (s', dd) then domSet doms (s', dd) [0] else doms) doms) v = [0] := by
  induction ss generalizing doms with
  | nil => exact h
  | cons s' t ih =>
    simp only [List.foldl_cons]
    exact ih _ (initStep_preserves doms dd s' v h)

theorem initInner_domMem (dd : Int) (ss : List String)
    (doms : List (Var × List Int)) (u : Var) :
    domMem (ss.foldl (fun doms s' =>
      if domMem doms (s', dd) then domSet doms (s', dd) [0] else doms) doms) u =
      domMem doms u := by
  induction ss generalizing doms with
  | nil => rfl
  | cons s' t ih =>
    simp only [List.foldl_cons]
    rw [ih, initStep_domMem]

theorem initInner_establishes (dd : Int) (ss : List String)
    (doms : List (Var × List Int)) (s : String) (hs : s ∈ ss)
    (hmem : domMem doms (s, dd) = true) :
    domGet (ss.foldl (fun doms s' =>
      if domMem doms (s', dd) then domSet doms (s', dd) [0] else doms) doms) (s, dd)
      = [0] := by
  induction ss generalizing doms with
  | nil => simp at hs
  | cons s' t ih =>
    simp only [List.foldl_cons]
    rcases List.mem_cons.mp hs with hq | hq
    · subst hq
      refine initInner_preserves dd t _ (s, dd) ?_
      rw [if_pos hmem]
      exact domGet_domSet_same _ _ _ hmem
    · refine ih _ hq ?_
      rw [initStep_domMem]
      exact hmem

theorem initOuter_preserves (leave : List (Int × List String))
    (doms : List (Var × List Int)) (v : Var) (h : domGet doms v = [0]) :
    domGet (leave.foldl (fun doms p =>
      p.2.foldl (fun doms s' =>
        if domMem doms (s', p.1) then domSet doms (s', p.1) [0] else doms) doms)
      doms) v = [0] := by
  induction leave generalizing doms with
  | nil => exact h
  | cons p t ih =>
    simp only [List.foldl_cons]
    exact ih _ (initInner_preserves p.1 p.2 doms v h)

theorem initOuter_domMem (leave : List (Int × List String))
    (doms : List (Var × List Int)) (u : Var) :
    domMem (leave.foldl (fun doms p =>
      p.2.foldl (fun doms s' =>
        if domMem doms (s', p.1) then domSet doms (s', p.1) [0] else doms) doms)
      doms) u = domMem doms u := by
  induction leave generalizing doms with
  | nil => rfl
  | cons p t ih =>
    simp only [List.foldl_cons]
    rw [ih, initInner_domMem]

theorem initOuter_zero (leave : List (Int × List String))
    (doms : List (Var × List Int)) (d : Int) (ss : List String) (s : String)
    (hin : (d, ss) ∈ leave) (hs : s ∈ ss) (hmem : domMem doms (s, d) = true) :
    domGet (leave.foldl (fun doms p =>
      p.2.foldl (fun doms s' =>
        if domMem doms (s', p.1) then domSet doms (s', p.1) [0] else doms) doms)
      doms) (s, d) = [0] := by
  induction leave generalizing doms with
  | nil => simp at hin
  | cons p t ih =>
    simp only [List.foldl_cons]
    rcases List.mem_cons.mp hin with hq | hq
    · subst hq
      exact initOuter_preserves t _ (s, d) (initInner_establishes d ss doms s hs hmem)
    · refine ih _ hq ?_
      rw [initInner_domMem]
      exact hmem

/-- C1: no staff member is ever assigned on a date inside their leave.
(1) Greedy path: in every roster returned by `generate_roster_logic`, the
staff selected for a date are drawn only from staff not on leave that date
(their leave list does not contain the date).
(2) CSP path: `initialize_domains` restricts the domain of every on-leave
(staff, date) variable present in `self.domains` to {0}. -/
theorem C1_no_leave_assignment :
    (∀ (df : List Row) (minStaff : Nat) (rosterStart rosterEnd : Int)
        (hol : Int → Option String) (R : List (Int × DayEntry)),
      rosterOf (generate_roster_logic df minStaff rosterStart rosterEnd hol) = some R →
      ∀ p ∈ R, ∀ s ∈ p.2.staff, (leaveDates df s).contains p.1 = false) ∧
    (∀ (csp : RosterCSP) (leave : List (Int × List String)) (d : Int)
        (ss : List String) (s : String),
      (d, ss) ∈ leave → s ∈ ss → domMem csp.domains (s, d) = true →
      domGet (initialize_domains csp leave).domains (s, d) = [0]) := by
  constructor
  · intro df minStaff rosterStart rosterEnd hol R h
    rw [generate_roster_logic_roster df minStaff rosterStart rosterEnd hol R h]
    refine roster_fold_no_leave df _ _ minStaff hol _ _ ?_
    intro p hp
    simp at hp
  · intro csp leave d ss s hin hs hmem
    exact initOuter_zero leave csp.domains d ss s hin hs hmem

/-- Leave table: A on leave on day 5 (the roster day), B on day 0. -/
def dfLeaveW : List Row := [⟨"A", "X", some 5, none⟩, ⟨"B", "X", some 0, none⟩]

/-- The single roster day produced on `dfLeaveW` (only B is available). -/
def entryW : DayEntry :=
  { staff := ["B"], specialties := ["X"], available_count := 1,
    is_weekend := true, is_holiday := false, holiday_name := "", is_in_lieu := false }

/-- CSP over staff A and day 7. -/
def cspW : RosterCSP := mkRosterCSP ["A"] [7] [("A", "X")]

/-- Leave schedule putting A on leave on day 7. -/
def leaveW : List (Int × List String) := [(7, ["A"])]

/-- C1 witness: both parts applied at concrete instances — B (selected on
day 5) is indeed not on leave that day, and A's domain on day 7 becomes {0}. -/
theorem C1_witness :
    (leaveDates dfLeaveW "B").contains 5 = false ∧
    domGet (initialize_domains cspW leaveW).domains ("A", 7) = [0] :=
  ⟨C1_no_leave_assignment.1 dfLeaveW 1 5 5 holNone [(5, entryW)] (by decide)
      (5, entryW) (by decide) "B" (by decide),
   C1_no_leave_assignment.2 cspW leaveW 7 ["A"] "A" (by decide) (by decide) (by decide)⟩

/-! ### C5 -/

theorem dateStaffCount_zero (a : Assignment) (staff : List String) (d : Int)
    (h : ∀ s, pyGet a (s, d) = 0) : dateStaffCount a staff d = 0 := by
  unfold dateStaffCount
  suffices hh : ∀ (l : List String) (acc : Int),
      l.foldl (fun acc s => acc + pyGet a (s, d)) acc = acc by
    exact hh staff 0
  intro l
  induction l with
  | nil => intro acc; rfl
  | cons s t ih =>
    intro acc
    rw [List.foldl_cons, h s, add_zero, ih]

theorem minimumStaff_check_false (ms : Int) (cds : List Int) (cstaff : List String)
    (a : Assignment) (hms : 1 ≤ ms) (d : Int) (hd : d ∈ cds)
    (hz : ∀ s, pyGet a (s, d) = 0) :
    minimumStaff_check ms cds cstaff a = false := by
  cases hall : minimumStaff_check ms cds cstaff a
  · rfl
  · exfalso
    unfold minimumStaff_check at hall
    rw [List.all_eq_true] at hall
    have := hall d hd
    rw [dateStaffCount_zero a cstaff d hz] at this
    simp only [decide_eq_true_eq] at this
    omega

theorem is_consistent_false_of_check_false (csp : RosterCSP) (c : Constraint)
    (a : Assignment) (hc : c ∈ csp.constraints) (hhard : c.ctype = ConstraintType.hard)
    (hfalse : c.check a = false) : is_consistent csp a = false := by
  cases hcons : is_consistent csp a
  · rfl
  · exfalso
    unfold is_consistent at hcons
    rw [List.all_eq_true] at hcons
    have hmem : c ∈ get_hard_constraints csp := by
      unfold get_hard_constraints
      exact List.mem_filter.mpr ⟨hc, by simp [hhard]⟩
    have := hcons c hmem
    rw [hfalse] at this
    exact Bool.false_ne_true this

/-- A generic early-`None` lemma for the value loop of `_backtrack`. -/
theorem foldl_step_none {α : Type}
    (f : Option Assignment × Nat → α → Option Assignment × Nat)
    (hf : ∀ it x, (f (none, it) x).1 = none) :
    ∀ (l : List α) (it : Nat), (l.foldl f (none, it)).1 = none := by
  intro l
  induction l with
  | nil => intro it; rfl
  | cons x t ih =>
    intro it
    rw [List.foldl_cons]
    cases hfx : f (none, it) x with
    | mk o n =>
      have ho : o = none := by
        have := hf it x
        rw [hfx] at this
        exact this
      subst ho
      exact ih n

/-- If the current assignment is inconsistent and every one-variable
extension of it is inconsistent, `_backtrack` fails immediately. -/
theorem backtrackGo_root_none (csp : RosterCSP) (fuel : Nat) (a : Assignment)
    (it : Nat) (ha : is_consistent csp a = false)
    (hext : ∀ (v : Var) (val : Int), is_consistent csp (pyInsert a v val) = false) :
    (backtrackGo csp fuel a it).1 = none := by
  cases fuel with
  | zero => rfl
  | succ n =>
    rw [backtrackGo]
    by_cases hcomp : is_complete csp a = true
    · simp only [hcomp, if_true, ha, Bool.false_eq_true, if_false]
    · simp only [hcomp, Bool.false_eq_true, if_false]
      cases hsel : select_unassigned_variable csp a with
      | none => rfl
      | some v =>
        simp only
        refine foldl_step_none _ ?_ _ _
        intro it' val
        unfold btStep
        simp only
        by_cases hdom : (domGet csp.domains v).contains val = true
        · simp only [hdom, if_true, hext v val, Bool.false_eq_true, if_false]
        · simp only [hdom, Bool.false_eq_true, if_false]

/-- All values of the pre-assignment built by `solve_with_backtracking`
(0 for every leave variable) are 0. -/
theorem solve_init_zero (doms : List (Var × List Int)) (v : Var) :
    pyGet (doms.foldl (fun a p => if p.2 = [0] then pyInsert a p.1 0 else a) []) v
      = 0 := by
  suffices h : ∀ (l : List (Var × List Int)) (a : Assignment),
      (∀ w, pyGet a w = 0) →
      ∀ w, pyGet (l.foldl (fun a p => if p.2 = [0] then pyInsert a p.1 0 else a) a) w
        = 0 by
    exact h doms [] (fun w => rfl) v
  intro l
  induction l with
  | nil => intro a ha w; exact ha w
  | cons p t ih =>
    intro a ha w
    rw [List.foldl_cons]
    refine ih _ ?_ w
    intro u
    by_cases hp : p.2 = [0]
    · rw [if_pos hp]
      by_cases hu : u = p.1
      · rw [hu]
        exact pyGet_pyInsert_same a p.1 0
      · rw [pyGet_pyInsert_other a p.1 u 0 hu]
        exact ha u
    · rw [if_neg hp]
      exact ha u

/-- C5: whenever the registered constraints include a `MinimumStaffConstraint`
with `min_staff ≥ 1` over at least two distinct dates, the backtracking
solver returns `None` on every instance: hard constraints are evaluated on
partial assignments with unassigned variables read as 0, so the
pre-assignment and every first decision already violate the minimum-staff
check on some date, and every branch is pruned at the root. -/
theorem C5_backtracking_always_none (csp : RosterCSP) (ms : Int) (cds : List Int)
    (cstaff : List String) (d1 d2 : Int)
    (hc : Constraint.minimumStaff ms cds cstaff ∈ csp.constraints)
    (hms : 1 ≤ ms) (h1 : d1 ∈ cds) (h2 : d2 ∈ cds) (hne : d1 ≠ d2) :
    (solve_with_backtracking csp).1 = none := by
  have hfail : ∀ (a : Assignment) (v₀ : Var), (∀ w, w ≠ v₀ → pyGet a w = 0) →
      is_consistent csp a = false := by
    intro a v₀ hz
    by_cases hb : v₀.2 = d1
    · refine is_consistent_false_of_check_false csp _ a hc rfl
        (minimumStaff_check_false ms cds cstaff a hms d2 h2 ?_)
      intro s
      refine hz (s, d2) ?_
      intro he
      exact hne (hb ▸ congrArg Prod.snd he.symm)
    · refine is_consistent_false_of_check_false csp _ a hc rfl
        (minimumStaff_check_false ms cds cstaff a hms d1 h1 ?_)
      intro s
      refine hz (s, d1) ?_
      intro he
      exact hb (congrArg Prod.snd he.symm)
  unfold solve_with_backtracking
  refine backtrackGo_root_none csp _ _ 0 ?_ ?_
  · exact hfail _ ("", 0) (fun w _ => solve_init_zero csp.domains w)
  · intro v val
    refine hfail _ v ?_
    intro w hw
    rw [pyGet_pyInsert_other _ _ _ _ hw]
    exact solve_init_zero csp.domains w

/-- CSP with two staff, two dates and MinimumStaff(1) over both dates. -/
def cspMinTwo : RosterCSP :=
  { mkRosterCSP ["A", "B"] [0, 1] [("A", "X"), ("B", "X")] with
    constraints := [Constraint.minimumStaff 1 [0, 1] ["A", "B"]] }

/-- A complete assignment for `cspMinTwo` satisfying every hard constraint. -/
def aMinTwoFull : Assignment :=
  [(("A", 0), 1), (("A", 1), 1), (("B", 0), 0), (("B", 1), 0)]

/-- C5 witness: the theorem applied at `cspMinTwo` — the solver returns
`None` even though the complete assignment `aMinTwoFull` satisfies all
hard constraints. -/
theorem C5_witness :
    (solve_with_backtracking cspMinTwo).1 = none ∧
    is_complete cspMinTwo aMinTwoFull = true ∧
    is_consistent cspMinTwo aMinTwoFull = true :=
  ⟨C5_backtracking_always_none cspMinTwo 1 [0, 1] ["A", "B"] 0 1 (by decide)
      (by decide) (by decide) (by decide) (by decide),
   by decide, by decide⟩

/-! ### C3 (amended): solver-run analysis on constraint-free instances -/

theorem is_consistent_no_constraints (csp : RosterCSP) (hc : csp.constraints = [])
    (a : Assignment) : is_consistent csp a = true := by
  unfold is_consistent get_hard_constraints
  rw [hc]
  rfl

theorem get_consistent_values_no_constraints (csp : RosterCSP)
    (hc : csp.constraints = []) (v : Var) (a : Assignment) :
    get_consistent_values csp v a = domGet csp.domains v := by
  unfold get_consistent_values
  rw [List.filter_eq_self]
  intro val _
  rw [is_consistent_no_constraints csp hc]

/-- The variable product in staff-major order (the keys of `self.domains`
and the order of `get_unassigned_variables`). -/
def prodVarsOf (csp : RosterCSP) : List Var :=
  csp.staff.flatMap (fun s => csp.dates.map (fun d => (s, d)))

theorem get_unassigned_variables_eq (csp : RosterCSP) (a : Assignment) :
    get_unassigned_variables csp a = (prodVarsOf csp).filter (fun v => ¬ aMem a v) := rfl

theorem prodVars_nodup_aux (staff : List String) (dates : List Int)
    (hs : staff.Nodup) (hd : dates.Nodup) :
    (staff.flatMap (fun s => dates.map (fun d => (s, d)))).Nodup := by
  induction staff with
  | nil => exact List.nodup_nil
  | cons s t ih =>
    rw [List.nodup_cons] at hs
    rw [List.flatMap_cons, List.nodup_append]
    refine ⟨hd.map (fun d d' h => (Prod.mk.injEq _ _ _ _ ▸ h).2), ih hs.2, ?_⟩
    intro v hv hv'
    rcases List.mem_map.mp hv with ⟨d, _, rfl⟩
    rcases List.mem_flatMap.mp hv' with ⟨s', hs', hv2⟩
    rcases List.mem_map.mp hv2 with ⟨d', _, he⟩
    exact hs.1 ((Prod.mk.injEq _ _ _ _ ▸ he).1 ▸ hs')

theorem prodVarsOf_nodup (csp : RosterCSP) (hs : csp.staff.Nodup)
    (hd : csp.dates.Nodup) : (prodVarsOf csp).Nodup :=
  prodVars_nodup_aux csp.staff csp.dates hs hd

theorem prodVars_length_aux (staff : List String) (dates : List Int) :
    (staff.flatMap (fun s => dates.map (fun d => (s, d)))).length =
      staff.length * dates.length := by
  induction staff with
  | nil => simp
  | cons s t ih =>
    rw [List.flatMap_cons, List.length_append, List.length_map, ih,
      List.length_cons]
    ring

theorem prodVarsOf_length (csp : RosterCSP) :
    (prodVarsOf csp).length = csp.staff.length * csp.dates.length :=
  prodVars_length_aux csp.staff csp.dates

theorem domGet_const_list (l : List Var) (c : List Int) (v : Var) (hv : v ∈ l) :
    domGet (l.map (fun u => (u, c))) v = c := by
  induction l with
  | nil => simp at hv
  | cons u t ih =>
    rw [List.map_cons, domGet]
    by_cases h : u = v
    · rw [if_pos h]
    · rcases List.mem_cons.mp hv with hq | hq
      · exact absurd hq.symm h
      · rw [if_neg h]
        exact ih hq

theorem mkRosterCSP_domains (staff : List String) (dates : List Int)
    (specialties : List (String × String)) :
    (mkRosterCSP staff dates specialties).domains =
      (staff.flatMap (fun s => dates.map (fun d => (s, d)))).map
        (fun u => (u, ([0, 1] : List Int))) := by
  show staff.flatMap (fun s => dates.map (fun d => ((s, d), [0, 1]))) = _
  induction staff with
  | nil => rfl
  | cons s t ih =>
    rw [List.flatMap_cons, List.flatMap_cons, List.map_append, ih, List.map_map]
    rfl

theorem mk_domGet (staff : List String) (dates : List Int)
    (specialties : List (String × String)) (v : Var)
    (hv : v ∈ prodVarsOf (mkRosterCSP staff dates specialties)) :
    domGet (mkRosterCSP staff dates specialties).domains v = [0, 1] := by
  rw [mkRosterCSP_domains]
  exact domGet_const_list _ _ v hv

theorem get_unassigned_pyInsert (csp : RosterCSP) (a : Assignment) (v : Var)
    (val : Int) :
    get_unassigned_variables csp (pyInsert a v val) =
      (get_unassigned_variables csp a).filter (fun w => ¬ w = v) := by
  rw [get_unassigned_variables_eq, get_unassigned_variables_eq, List.filter_filter]
  apply List.filter_congr
  intro w _
  by_cases h1 : w = v <;> by_cases h2 : aMem a w = true <;>
    simp [aMem_pyInsert, h1, h2]

theorem filter_ne_head (v : Var) (rest : List Var) (hnd : (v :: rest).Nodup) :
    (v :: rest).filter (fun w => ¬ w = v) = rest := by
  rw [List.nodup_cons] at hnd
  rw [List.filter_cons]
  split
  · next h => simp at h
  · next h =>
      apply List.filter_eq_self.mpr
      intro w hw
      simp only [decide_eq_true_eq]
      intro he
      subst he
      exact hnd.1 hw

theorem select_fold_const (csp : RosterCSP) (a : Assignment) (c : Nat) :
    ∀ (l : List Var) (w : Var),
      (∀ u ∈ l, (get_consistent_values csp u a).length = c) →
      l.foldl (fun best v =>
        let n := (get_consistent_values csp v a).length
        match best with
        | none => some (n, v)
        | some b => if n < b.1 then some (n, v) else some b) (some (c, w))
        = some (c, w) := by
  intro l
  induction l with
  | nil => intro w _; rfl
  | cons u t ih =>
    intro w hall
    rw [List.foldl_cons]
    have hu : (get_consistent_values csp u a).length = c :=
      hall u (List.mem_cons_self u t)
    show t.foldl _
      (if (get_consistent_values csp u a).length < c
        then some ((get_consistent_values csp u a).length, u) else some (c, w))
      = some (c, w)
    rw [hu, if_neg (lt_irrefl c)]
    exact ih w (fun x hx => hall x (List.mem_cons_of_mem u hx))

theorem select_head_of_const (csp : RosterCSP) (a : Assignment) (c : Nat)
    (hall : ∀ u ∈ get_unassigned_variables csp a,
      (get_consistent_values csp u a).length = c) :
    select_unassigned_variable csp a = (get_unassigned_variables csp a).head? := by
  unfold select_unassigned_variable
  cases hun : get_unassigned_variables csp a with
  | nil => rfl
  | cons v rest =>
    rw [List.foldl_cons]
    have hv : (get_consistent_values csp v a).length = c :=
      hall v (by rw [hun]; exact List.mem_cons_self v rest)
    show (rest.foldl _ (some ((get_consistent_values csp v a).length, v))).map
        (fun b => b.2) = some v
    rw [hv, select_fold_const csp a c rest v
      (fun x hx => hall x (by rw [hun]; exact List.mem_cons_of_mem v hx))]
    rfl

/-- On a constraint-free CSP whose variables all have domain {0, 1}, the
backtracking search assigns 1 to each variable in turn, never backtracks,
and returns a solution after (number of unassigned variables) + 1 node
visits. -/
theorem backtrackGo_free_run (csp : RosterCSP) (hc : csp.constraints = [])
    (hnd : (prodVarsOf csp).Nodup)
    (hdom : ∀ v ∈ prodVarsOf csp, domGet csp.domains v = [0, 1]) :
    ∀ (un : List Var) (a : Assignment) (it fuel : Nat),
      get_unassigned_variables csp a = un →
      un.length + 1 ≤ fuel →
      a.length + un.length = csp.staff.length * csp.dates.length →
      ((backtrackGo csp fuel a it).1.isSome = true ∧
       (backtrackGo csp fuel a it).2 = it + un.length + 1) := by
  intro un
  induction un with
  | nil =>
    intro a it fuel hun hfuel hlen
    cases fuel with
    | zero => omega
    | succ m =>
      rw [backtrackGo]
      have hcomp : is_complete csp a = true := by
        unfold is_complete
        simp only [List.length_nil, Nat.add_zero] at hlen
        simp [hlen]
      simp [hcomp, is_consistent_no_constraints csp hc a]
  | cons v rest ih =>
    intro a it fuel hun hfuel hlen
    cases fuel with
    | zero =>
      simp only [List.length_cons] at hfuel
      omega
    | succ m =>
      simp only [List.length_cons] at hfuel hlen
      have hvmem : v ∈ get_unassigned_variables csp a := by
        rw [hun]; exact List.mem_cons_self v rest
      have hvfil : v ∈ (prodVarsOf csp).filter (fun w => ¬ aMem a w) := by
        rw [← get_unassigned_variables_eq]; exact hvmem
      have hvprod : v ∈ prodVarsOf csp := List.mem_of_mem_filter hvfil
      have hanotmem : aMem a v = false := by
        have := List.of_mem_filter hvfil
        simpa using this
      have hcomp : is_complete csp a = false := by
        unfold is_complete
        simp only [decide_eq_false_iff_not]
        omega
      have hsel : select_unassigned_variable csp a = some v := by
        rw [select_head_of_const csp a 2 ?_, hun]
        · rfl
        · intro u hu
          rw [get_consistent_values_no_constraints csp hc, hdom u
            (List.mem_of_mem_filter (show u ∈ (prodVarsOf csp).filter
              (fun w => ¬ aMem a w) by rw [← get_unassigned_variables_eq]; exact hu))]
          rfl
      have hord : order_domain_values csp v = [1, 0] := by
        unfold order_domain_values
        rw [hdom v hvprod]
        rfl
      rw [backtrackGo]
      simp only [hcomp, Bool.false_eq_true, if_false, hsel, hord]
      rw [List.foldl_cons]
      have hcont : (domGet csp.domains v).contains 1 = true := by
        rw [hdom v hvprod]
        rfl
      have hundup : (v :: rest).Nodup := by
        rw [← hun, get_unassigned_variables_eq]
        exact hnd.filter _
      have hun' : get_unassigned_variables csp (pyInsert a v 1) = rest := by
        rw [get_unassigned_pyInsert, hun]
        exact filter_ne_head v rest hundup
      have hlen' : (pyInsert a v 1).length + rest.length =
          csp.staff.length * csp.dates.length := by
        rw [pyInsert_length_of_not_aMem a v 1 hanotmem]
        omega
      obtain ⟨hsome, hit⟩ := ih (pyInsert a v 1) (it + 1) m hun' (by omega) hlen'
      have hstep1 : btStep csp (backtrackGo csp m) a v (none, it + 1) 1 =
          backtrackGo csp m (pyInsert a v 1) (it + 1) := by
        unfold btStep
        simp only
        rw [if_pos hcont, if_pos (is_consistent_no_constraints csp hc _)]
      rw [hstep1]
      cases hbt : backtrackGo csp m (pyInsert a v 1) (it + 1) with
      | mk o n =>
        rw [hbt] at hsome hit
        simp only at hsome hit
        rcases Option.isSome_iff_exists.mp hsome with ⟨r, hr⟩
        subst hr
        rw [List.foldl_cons, List.foldl_nil, btStep]
        simp only [List.length_cons]
        exact ⟨rfl, by omega⟩

theorem solve_eq_backtrackGo (csp : RosterCSP) :
    solve_with_backtracking csp =
      backtrackGo csp (csp.staff.length * csp.dates.length + 1)
        (csp.domains.foldl (fun a p => if p.2 = [0] then pyInsert a p.1 0 else a) [])
        0 := rfl

theorem mk_init_empty (staff : List String) (dates : List Int)
    (specialties : List (String × String)) :
    ((mkRosterCSP staff dates specialties).domains.foldl
      (fun a p => if p.2 = [0] then pyInsert a p.1 0 else a) []) = [] := by
  rw [mkRosterCSP_domains]
  suffices h : ∀ (l : List Var) (a : Assignment),
      ((l.map (fun u => (u, ([0, 1] : List Int)))).foldl
        (fun a p => if p.2 = [0] then pyInsert a p.1 0 else a) a) = a by
    exact h _ []
  intro l
  induction l with
  | nil => intro a; rfl
  | cons u t ih =>
    intro a
    rw [List.map_cons, List.foldl_cons, if_neg (by simp), ih]

theorem get_unassigned_variables_empty (csp : RosterCSP) :
    get_unassigned_variables csp [] = prodVarsOf csp := by
  rw [get_unassigned_variables_eq]
  apply List.filter_eq_self.mpr
  intro w _
  simp [aMem]

/-- The constraint-free CSP family: one staff member, `n` distinct dates,
no registered constraints. -/
def cspLine (n : Nat) : RosterCSP :=
  mkRosterCSP ["A"] ((List.range n).map Int.ofNat) [("A", "X")]

/-- C3 (amended): `solve_with_backtracking` enforces no iteration or
wall-clock cutoff — it takes no cutoff input at all, the iteration counter
is recorded for diagnostics only, and the search runs to completion
regardless of the iterations already spent.  On the constraint-free
instance with `n` variables it performs `n + 1` iterations and still
returns a solution, so for every finite cutoff there are instances whose
searches run past it without reporting failure; termination is guaranteed
only by exhaustion of the finite search space. -/
theorem C3_no_cutoff_enforced (n : Nat) :
    (solve_with_backtracking (cspLine n)).1.isSome = true ∧
    (solve_with_backtracking (cspLine n)).2 = n + 1 := by
  have hc : (cspLine n).constraints = [] := rfl
  have hdatesnd : ((List.range n).map Int.ofNat).Nodup :=
    (List.nodup_range n).map (fun a b h => Int.ofNat.inj h)
  have hnd : (prodVarsOf (cspLine n)).Nodup :=
    prodVarsOf_nodup _ (List.nodup_singleton "A") hdatesnd
  have hdom : ∀ v ∈ prodVarsOf (cspLine n),
      domGet (cspLine n).domains v = [0, 1] := by
    intro v hv
    exact mk_domGet _ _ _ v hv
  have hlen : ([] : Assignment).length + (prodVarsOf (cspLine n)).length =
      (cspLine n).staff.length * (cspLine n).dates.length := by
    rw [prodVarsOf_length]
    simp
  have hfuel : (prodVarsOf (cspLine n)).length + 1 ≤
      (cspLine n).staff.length * (cspLine n).dates.length + 1 := by
    simp [prodVarsOf_length]
  have hrun := backtrackGo_free_run (cspLine n) hc hnd hdom
    (prodVarsOf (cspLine n)) [] 0
    ((cspLine n).staff.length * (cspLine n).dates.length + 1)
    (get_unassigned_variables_empty (cspLine n)) hfuel hlen
  have hinit : List.foldl (fun a p => if p.2 = [0] then pyInsert a p.1 0 else a)
      [] (cspLine n).domains = [] :=
    mk_init_empty ["A"] ((List.range n).map Int.ofNat) [("A", "X")]
  rw [solve_eq_backtrackGo, hinit]
  have hplen : (prodVarsOf (cspLine n)).length = n := by
    rw [prodVarsOf_length]
    show 1 * ((List.range n).map Int.ofNat).length = n
    simp
  exact ⟨hrun.1, by rw [hrun.2, hplen]; omega⟩

/-! ### C6 -/

/-- C6 counterexample: `format_solution_as_roster` hard-codes the
understaffing threshold 2 (utils.py line 338, "Assuming min 2").  With
`min_staff_per_day = 1`, a single-day solution assigning exactly one staff
member meets the minimum, so the claim requires `days_understaffed = 0`;
the formatter reports 1. -/
theorem C6_counterexample :
    (match format_solution_as_roster [(("A", 0), 1)] [0] ["A"] [("A", "X")] holNone with
     | .ok r => some (r.stats.days_understaffed,
         (r.roster.filter (fun p => p.2.staff.length < 1)).length)
     | .error _ => none) = some (1, 0) := rfl

/-- C6 (amended): in greedy results, `days_understaffed` counts exactly the
roster dates with fewer than `min_staff_per_day` selected staff and
`coverage_percentage = (total - understaffed) / total * 100`;
`format_solution_as_roster` computes the same statistics but counts a date
as understaffed when fewer than the hard-coded 2 staff are assigned,
regardless of `min_staff_per_day` (which it does not receive). -/
theorem C6_understaffed_coverage :
    (∀ (df : List Row) (minStaff : Nat) (rosterStart rosterEnd : Int)
        (hol : Int → Option String),
      match generate_roster_logic df minStaff rosterStart rosterEnd hol with
      | .error _ => True
      | .ok r =>
        r.stats.days_understaffed =
          (r.roster.filter (fun p => p.2.staff.length < minStaff)).length ∧
        r.stats.total_days = r.roster.length ∧
        r.stats.coverage_percentage =
          (((r.stats.total_days : ℚ) - (r.stats.days_understaffed : ℚ)) /
            (r.stats.total_days : ℚ)) * 100) ∧
    (∀ (solution : Assignment) (dates : List Int) (staff_list : List String)
        (specialties : List (String × String)) (hol : Int → Option String),
      match format_solution_as_roster solution dates staff_list specialties hol with
      | .error _ => True
      | .ok r =>
        r.stats.days_understaffed =
          (r.roster.filter (fun p => p.2.staff.length < 2)).length ∧
        r.stats.total_days = dates.length ∧
        r.stats.coverage_percentage =
          (((r.stats.total_days : ℚ) - (r.stats.days_understaffed : ℚ)) /
            (r.stats.total_days : ℚ)) * 100) := by
  constructor
  · intro df minStaff rosterStart rosterEnd hol
    unfold generate_roster_logic
    split
    · trivial
    · next r heq =>
        dsimp only at heq
        split at heq
        · exact absurd heq (by simp)
        · injection heq with h
          subst h
          exact ⟨rfl, rfl, rfl⟩
  · intro solution dates staff_list specialties hol
    unfold format_solution_as_roster
    split
    · trivial
    · next r heq =>
        dsimp only at heq
        split at heq
        · exact absurd heq (by simp)
        · injection heq with h
          subst h
          exact ⟨rfl, rfl, rfl⟩

/-! ### C10 -/

theorem map_incr_sum (allStaff : List String) (w : String → Nat) (s₀ : String) :
    (allStaff.map (fun x => if x = s₀ then w x + 1 else w x)).sum
      = (allStaff.map w).sum + allStaff.count s₀ := by
  induction allStaff with
  | nil => rfl
  | cons y t ih =>
    rw [List.map_cons, List.map_cons, List.sum_cons, List.sum_cons, List.count_cons, ih]
    by_cases h : y = s₀
    · simp only [h, if_pos, beq_self_eq_true, if_true]
      omega
    · have h' : (y == s₀) = false := by
        simp [h]
      simp only [h, if_false, h', Bool.false_eq_true]
      omega

theorem foldl_incr_sum (sel : List String) :
    ∀ (wc : String → Nat) (allStaff : List String),
      (∀ x ∈ sel, allStaff.count x = 1) →
      (allStaff.map (sel.foldl (fun w s => fun x => if x = s then w x + 1 else w x) wc)).sum
        = (allStaff.map wc).sum + sel.length := by
  induction sel with
  | nil => intro wc allStaff _; simp
  | cons s₀ rest ih =>
    intro wc allStaff hcnt
    rw [List.foldl_cons]
    rw [ih _ allStaff (fun x hx => hcnt x (List.mem_cons_of_mem s₀ hx))]
    rw [map_incr_sum allStaff wc s₀, hcnt s₀ (List.mem_cons_self s₀ rest)]
    simp only [List.length_cons]
    omega

theorem roster_fold_sum (df : List Row) (allStaff allSpecialties : List String)
    (minStaff : Nat) (hol : Int → Option String) (hnd : allStaff.Nodup)
    (days : List Int) :
    ∀ (st : GenState),
      (allStaff.map st.wc).sum = (st.roster.map (fun p => p.2.staff.length)).sum →
      (allStaff.map
        ((days.foldl (dayStep df allStaff allSpecialties minStaff hol) st).wc)).sum
        = ((days.foldl (dayStep df allStaff allSpecialties minStaff hol) st).roster.map
            (fun p => p.2.staff.length)).sum := by
  induction days with
  | nil => intro st h; exact h
  | cons d t ih =>
    intro st h
    rw [List.foldl_cons]
    refine ih _ ?_
    have hcnt : ∀ x ∈ (selectForDay df allStaff allSpecialties st.wc minStaff d).1,
        allStaff.count x = 1 := by
      intro x hx
      refine List.count_eq_one_of_mem hnd ?_
      exact (mem_availableStaffOn df allStaff d x
        (mem_selectForDay df allStaff allSpecialties st.wc minStaff d x hx)).1
    simp only [dayStep]
    rw [foldl_incr_sum _ st.wc allStaff hcnt, List.map_append, List.sum_append, h]
    simp

theorem sumValues_assocIncr (l : List (String × Nat)) (s : String) :
    ((assocIncr l s).map (fun p => p.2)).sum = ((l.map (fun p => p.2)).sum) + 1 := by
  induction l with
  | nil => rfl
  | cons q t ih =>
    by_cases h : q.1 = s
    · simp only [assocIncr, h, if_pos, List.map_cons, List.sum_cons]
      omega
    · simp only [assocIncr, h, if_false, List.map_cons, List.sum_cons, ih]
      omega

theorem sumValues_buildWC (sol : Assignment) :
    ∀ (acc : List (String × Nat)),
      (((sol.foldl (fun acc p => if p.2 = 1 then assocIncr acc p.1.1 else acc)
          acc)).map (fun p => p.2)).sum
        = ((acc.map (fun p => p.2)).sum) + sol.countP (fun p => p.2 = 1) := by
  induction sol with
  | nil => intro acc; simp
  | cons q t ih =>
    intro acc
    rw [List.foldl_cons, List.countP_cons]
    by_cases h : q.2 = 1
    · simp only [h, if_pos, if_true]
      rw [ih (assocIncr acc q.1.1), sumValues_assocIncr]
      simp only [h, decide_eq_true_eq]
      simp
      omega
    · simp only [h, if_false]
      rw [ih acc]
      simp [h]

theorem pyGet_of_mem_nodup (sol : Assignment) (hnd : (sol.map (fun p => p.1)).Nodup) :
    ∀ p ∈ sol, pyGet sol p.1 = p.2 := by
  induction sol with
  | nil => intro p hp; simp at hp
  | cons q t ih =>
    rw [List.map_cons, List.nodup_cons] at hnd
    intro p hp
    rcases List.mem_cons.mp hp with hq | hq
    · subst hq
      simp [pyGet]
    · rw [pyGet]
      by_cases he : q.1 = p.1
      · exfalso
        exact hnd.1 (he ▸ List.mem_map_of_mem (fun p => p.1) hq)
      · rw [if_neg he]
        exact ih hnd.2 p hq

theorem mem_keys_of_pyGet_ne_zero (sol : Assignment) (v : Var)
    (h : pyGet sol v ≠ 0) : v ∈ sol.map (fun p => p.1) := by
  induction sol with
  | nil => exact absurd rfl h
  | cons q t ih =>
    rw [pyGet] at h
    by_cases he : q.1 = v
    · exact List.mem_cons.mpr (Or.inl he.symm)
    · rw [if_neg he] at h
      exact List.mem_cons_of_mem _ (ih h)

theorem dProd_nodup (dates : List Int) (staff : List String)
    (hd : dates.Nodup) (hs : staff.Nodup) :
    (dates.flatMap (fun d => staff.map (fun s => (s, d)))).Nodup := by
  induction dates with
  | nil => exact List.nodup_nil
  | cons d t ih =>
    rw [List.nodup_cons] at hd
    rw [List.flatMap_cons, List.nodup_append]
    refine ⟨hs.map (fun s s' h => (Prod.mk.injEq _ _ _ _ ▸ h).1), ih hd.2, ?_⟩
    intro v hv hv'
    rcases List.mem_map.mp hv with ⟨s, _, rfl⟩
    rcases List.mem_flatMap.mp hv' with ⟨d', hd', hv2⟩
    rcases List.mem_map.mp hv2 with ⟨s', _, he⟩
    exact hd.1 ((Prod.mk.injEq _ _ _ _ ▸ he).2 ▸ hd')

theorem countP_dProd (dates : List Int) (staff_list : List String) (P : Var → Bool) :
    (dates.flatMap (fun d => staff_list.map (fun s => (s, d)))).countP P
      = (dates.map (fun d => staff_list.countP (fun s => P (s, d)))).sum := by
  induction dates with
  | nil => rfl
  | cons d t ih =>
    rw [List.flatMap_cons, List.countP_append, List.map_cons, List.sum_cons, ih,
      List.countP_map]
    rfl

theorem keys_filter_perm (sol : Assignment) (dates : List Int)
    (staff_list : List String) (hnd : (sol.map (fun p => p.1)).Nodup)
    (hin : ∀ p ∈ sol, p.1.1 ∈ staff_list ∧ p.1.2 ∈ dates)
    (hs : staff_list.Nodup) (hd : dates.Nodup) :
    List.Perm ((sol.map (fun p => p.1)).filter (fun v => pyGet sol v = 1))
      ((dates.flatMap (fun d => staff_list.map (fun s => (s, d)))).filter
        (fun v => pyGet sol v = 1)) := by
  refine (List.perm_ext_iff_of_nodup (hnd.filter _)
    ((dProd_nodup dates staff_list hd hs).filter _)).mpr ?_
  intro v
  simp only [List.mem_filter, decide_eq_true_eq]
  constructor
  · rintro ⟨hv, hp⟩
    refine ⟨?_, hp⟩
    rcases List.mem_map.mp hv with ⟨p, hpmem, rfl⟩
    rcases hin p hpmem with ⟨h1, h2⟩
    refine List.mem_flatMap.mpr ⟨p.1.2, h2, ?_⟩
    exact List.mem_map.mpr ⟨p.1.1, h1, Prod.mk.eta⟩
  · rintro ⟨_, hp⟩
    exact ⟨mem_keys_of_pyGet_ne_zero sol v (by rw [hp]; exact one_ne_zero), hp⟩

/-- C10: the values of `stats.staff_work_distribution` sum to the total
number of assigned (staff, date) cells, i.e. the sum over roster dates of
the number of staff selected that date.  Unconditionally for greedy
results; for `format_solution_as_roster` under the callers' well-formedness
conditions (solution keys are distinct pairs drawn from the staff list and
date list, both duplicate-free). -/
theorem C10_work_distribution_sum :
    (∀ (df : List Row) (minStaff : Nat) (rosterStart rosterEnd : Int)
        (hol : Int → Option String),
      match generate_roster_logic df minStaff rosterStart rosterEnd hol with
      | .error _ => True
      | .ok r => (r.stats.staff_work_distribution.map (fun p => p.2)).sum =
          (r.roster.map (fun p => p.2.staff.length)).sum) ∧
    (∀ (solution : Assignment) (dates : List Int) (staff_list : List String)
        (specialties : List (String × String)) (hol : Int → Option String),
      (solution.map (fun p => p.1)).Nodup →
      (∀ p ∈ solution, p.1.1 ∈ staff_list ∧ p.1.2 ∈ dates) →
      staff_list.Nodup → dates.Nodup →
      match format_solution_as_roster solution dates staff_list specialties hol with
      | .error _ => True
      | .ok r => (r.stats.staff_work_distribution.map (fun p => p.2)).sum =
          (r.roster.map (fun p => p.2.staff.length)).sum) := by
  constructor
  · intro df minStaff rosterStart rosterEnd hol
    unfold generate_roster_logic
    split
    · trivial
    · next r heq =>
        dsimp only at heq
        split at heq
        · exact absurd heq (by simp)
        · injection heq with h
          subst h
          show ((List.map (fun s => (s, _)) _).map (fun p => p.2)).sum = _
          rw [List.map_map]
          refine roster_fold_sum df _ _ minStaff hol
            (pyUnique_nodup (df.map (fun r => r.staff)))
            (intRange rosterStart rosterEnd) _ ?_
          simp
  · intro sol dates staff_list specialties hol hnd hin hs hd
    unfold format_solution_as_roster
    split
    · trivial
    · next r heq =>
        dsimp only at heq
        split at heq
        · exact absurd heq (by simp)
        · injection heq with h
          subst h
          show ((sol.foldl (fun acc p => if p.2 = 1 then assocIncr acc p.1.1 else acc)
            []).map (fun p => p.2)).sum = _
          rw [sumValues_buildWC sol []]
          simp only [List.map_nil, List.sum_nil, Nat.zero_add]
          have h1 : sol.countP (fun p => p.2 = 1)
              = (sol.map (fun p => p.1)).countP (fun v => pyGet sol v = 1) := by
            rw [List.countP_map]
            refine List.countP_congr ?_
            intro p hp
            simp only [Function.comp, decide_eq_true_eq]
            rw [pyGet_of_mem_nodup sol hnd p hp]
          rw [h1, List.countP_eq_length_filter,
            (keys_filter_perm sol dates staff_list hnd hin hs hd).length_eq,
            ← List.countP_eq_length_filter, countP_dProd]
          rw [List.map_map]
          simp only [List.countP_eq_length_filter]
          congr 1

/-- C10 witness: the formatter conclusion applied at a concrete well-formed
solution (one assigned cell out of two). -/
theorem C10_witness :
    (match format_solution_as_roster [(("A", 0), 1), (("B", 0), 0)] [0] ["A", "B"]
        [("A", "X"), ("B", "Y")] holNone with
     | .error _ => True
     | .ok r => (r.stats.staff_work_distribution.map (fun p => p.2)).sum =
         (r.roster.map (fun p => p.2.staff.length)).sum) :=
  C10_work_distribution_sum.2 [(("A", 0), 1), (("B", 0), 0)] [0] ["A", "B"]
    [("A", "X"), ("B", "Y")] holNone (by decide) (by decide) (by decide) (by decide)

/-! ### C7: MaxConsecutiveDays — ILP windows vs the check loop

`mrc c l` is the length of the longest all-1 run in `l`, where the run in
progress at the start of `l` already has length `c` (the `consecutive`
counter of the check loop). -/

def mrc : Nat → List Int → Nat
  | c, [] => c
  | c, x :: t => if x = 1 then mrc (c + 1) t else Nat.max c (mrc 0 t)

theorem mrc_ge (l : List Int) : ∀ c : Nat, c ≤ mrc c l := by
  induction l with
  | nil => intro c; exact Nat.le_refl c
  | cons x t ih =>
    intro c
    by_cases h : x = 1
    · rw [mrc, if_pos h]
      exact Nat.le_trans (Nat.le_succ c) (ih (c + 1))
    · rw [mrc, if_neg h]
      exact Nat.le_max_left c (mrc 0 t)

theorem mrc_mono (l : List Int) : ∀ c c' : Nat, c ≤ c' → mrc c l ≤ mrc c' l := by
  induction l with
  | nil => intro c c' h; exact h
  | cons x t ih =>
    intro c c' h
    by_cases hx : x = 1
    · rw [mrc, if_pos hx, mrc, if_pos hx]
      exact ih _ _ (Nat.succ_le_succ h)
    · rw [mrc, if_neg hx, mrc, if_neg hx]
      exact Nat.max_le.mpr ⟨Nat.le_trans h (Nat.le_max_left c' _), Nat.le_max_right c' _⟩

theorem goRun_iff_mrc (maxd : Nat) : ∀ (l : List Int) (c : Nat), c ≤ maxd →
    (goRun maxd c l = true ↔ mrc c l ≤ maxd) := by
  intro l
  induction l with
  | nil =>
    intro c hc
    simp [goRun, mrc, hc]
  | cons x t ih =>
    intro c hc
    by_cases hx : x = 1
    · rw [goRun, if_pos hx, mrc, if_pos hx]
      by_cases hover : maxd < c + 1
      · rw [if_pos hover]
        constructor
        · intro h; exact absurd h (by simp)
        · intro h
          exfalso
          have := Nat.le_trans (mrc_ge t (c + 1)) h
          omega
      · rw [if_neg hover]
        exact ih (c + 1) (by omega)
    · rw [goRun, if_neg hx, mrc, if_neg hx]
      rw [ih 0 (Nat.zero_le maxd)]
      constructor
      · intro h
        exact Nat.max_le.mpr ⟨hc, h⟩
      · intro h
        exact (Nat.max_le.mp h).2

theorem lead_run_le_mrc : ∀ (k : Nat) (l : List Int) (c : Nat), k ≤ l.length →
    (∀ i < k, l.getD i 0 = 1) → c + k ≤ mrc c l := by
  intro k
  induction k with
  | zero => intro l c _ _; simpa using mrc_ge l c
  | succ k ih =>
    intro l c hk hones
    cases l with
    | nil => simp at hk
    | cons x t =>
      have hx : x = 1 := hones 0 (Nat.succ_pos k)
      rw [mrc, if_pos hx]
      have ht : ∀ i < k, t.getD i 0 = 1 := by
        intro i hi
        exact hones (i + 1) (Nat.succ_lt_succ hi)
      have := ih t (c + 1) (by simpa using Nat.succ_le_succ_iff.mp hk) ht
      omega

theorem window_run_le_mrc : ∀ (start : Nat) (l : List Int) (k : Nat),
    start + k ≤ l.length → (∀ i < k, l.getD (start + i) 0 = 1) → k ≤ mrc 0 l := by
  intro start
  induction start with
  | zero =>
    intro l k hk hones
    have := lead_run_le_mrc k l 0 (by omega) (by simpa using hones)
    omega
  | succ start ih =>
    intro l k hk hones
    cases l with
    | nil =>
      cases k with
      | zero => exact Nat.zero_le _
      | succ k => simp at hk
    | cons x t =>
      have ht : k ≤ mrc 0 t := by
        refine ih t k (by simp only [List.length_cons] at hk; omega) ?_
        intro i hi
        have h2 := hones i hi
        rw [show start + 1 + i = (start + i) + 1 by omega, List.getD_cons_succ] at h2
        exact h2
      by_cases hx : x = 1
      · rw [mrc, if_pos hx]
        exact Nat.le_trans ht (mrc_mono t 0 1 (Nat.zero_le 1))
      · rw [mrc, if_neg hx]
        exact Nat.le_trans ht (Nat.le_max_right 0 (mrc 0 t))

theorem mrc_gt_exists_run (maxd : Nat) : ∀ (l : List Int) (c : Nat), c ≤ maxd →
    maxd < mrc c l →
    (∃ j, j + c = maxd + 1 ∧ j ≤ l.length ∧ ∀ i < j, l.getD i 0 = 1) ∨
    (∃ start, start + (maxd + 1) ≤ l.length ∧
      ∀ i < maxd + 1, l.getD (start + i) 0 = 1) := by
  intro l
  induction l with
  | nil =>
    intro c hc hgt
    rw [mrc] at hgt
    omega
  | cons x t ih =>
    intro c hc hgt
    by_cases hx : x = 1
    · rw [mrc, if_pos hx] at hgt
      by_cases hc1 : c + 1 ≤ maxd
      · rcases ih (c + 1) hc1 hgt with ⟨j, hj, hjlen, hones⟩ | ⟨start, hslen, hones⟩
        · left
          refine ⟨j + 1, by omega, by simp only [List.length_cons]; omega, ?_⟩
          intro i hi
          cases i with
          | zero => simp [List.getD_cons_zero, hx]
          | succ i =>
            rw [List.getD_cons_succ]
            exact hones i (by omega)
        · right
          refine ⟨start + 1, by simp only [List.length_cons]; omega, ?_⟩
          intro i hi
          rw [show start + 1 + i = (start + i) + 1 by omega, List.getD_cons_succ]
          exact hones i hi
      · left
        refine ⟨1, by omega, by simp, ?_⟩
        intro i hi
        cases i with
        | zero => simp [List.getD_cons_zero, hx]
        | succ i => omega
    · rw [mrc, if_neg hx] at hgt
      have hgt' : maxd < mrc 0 t := by
        rcases lt_max_iff.mp hgt with h | h
        · omega
        · exact h
      rcases ih 0 (Nat.zero_le maxd) hgt' with ⟨j, hj, hjlen, hones⟩ | ⟨start, hslen, hones⟩
      · right
        refine ⟨1, by simp only [List.length_cons]; omega, ?_⟩
        intro i hi
        rw [show 1 + i = i + 1 by omega, List.getD_cons_succ]
        exact hones i (by omega)
      · right
        refine ⟨start + 1, by simp only [List.length_cons]; omega, ?_⟩
        intro i hi
        rw [show start + 1 + i = (start + i) + 1 by omega, List.getD_cons_succ]
        exact hones i hi

/-- The window characterization of the check loop: `goRun` from counter 0
succeeds iff every window of `maxd + 1` consecutive positions contains a
non-1 value. -/
theorem goRun_iff_windows (maxd : Nat) (l : List Int) :
    goRun maxd 0 l = true ↔
      ∀ start, start + (maxd + 1) ≤ l.length →
        ∃ i < maxd + 1, l.getD (start + i) 0 ≠ 1 := by
  rw [goRun_iff_mrc maxd l 0 (Nat.zero_le maxd)]
  constructor
  · intro h start hlen
    by_contra hall
    push_neg at hall
    have := window_run_le_mrc start l (maxd + 1) hlen hall
    omega
  · intro h
    by_contra hgt
    push_neg at hgt
    rcases mrc_gt_exists_run maxd l 0 (Nat.zero_le maxd) (by omega)
      with ⟨j, hj, hjlen, hones⟩ | ⟨start, hslen, hones⟩
    · rcases h 0 (by omega) with ⟨i, hi, hne⟩
      exact hne (by simpa using hones i (by omega))
    · rcases h start hslen with ⟨i, hi, hne⟩
      exact hne (hones i hi)

theorem sum01_all1 (m : List Int) (h : ∀ x ∈ m, x = 1) : m.sum = (m.length : Int) := by
  induction m with
  | nil => rfl
  | cons x t ih =>
    rw [List.sum_cons, h x (List.mem_cons_self x t),
      ih (fun y hy => h y (List.mem_cons_of_mem x hy))]
    simp only [List.length_cons]
    push_cast
    ring

theorem sum01_le (m : List Int) (h : ∀ x ∈ m, x = 0 ∨ x = 1) :
    m.sum ≤ (m.length : Int) := by
  induction m with
  | nil => simp
  | cons x t ih =>
    rw [List.sum_cons]
    have hx := h x (List.mem_cons_self x t)
    have ht := ih (fun y hy => h y (List.mem_cons_of_mem x hy))
    simp only [List.length_cons]
    push_cast
    omega

theorem sum01_lt (m : List Int) (h : ∀ x ∈ m, x = 0 ∨ x = 1)
    (hex : ∃ x ∈ m, ¬ x = 1) : m.sum ≤ (m.length : Int) - 1 := by
  induction m with
  | nil => simp at hex
  | cons x t ih =>
    rw [List.sum_cons]
    have hx := h x (List.mem_cons_self x t)
    have ht := sum01_le t (fun y hy => h y (List.mem_cons_of_mem x hy))
    rcases hex with ⟨y, hy, hyne⟩
    rcases List.mem_cons.mp hy with hq | hq
    · subst hq
      have hy0 : y = 0 := by tauto
      simp only [List.length_cons]
      push_cast
      omega
    · have := ih (fun z hz => h z (List.mem_cons_of_mem x hz)) ⟨y, hq, hyne⟩
      simp only [List.length_cons]
      push_cast
      omega

theorem window_sum_iff (m : List Int) (k : Nat) (hlen : m.length = k + 1)
    (h01 : ∀ x ∈ m, x = 0 ∨ x = 1) :
    m.sum ≤ (k : Int) ↔ ∃ x ∈ m, ¬ x = 1 := by
  constructor
  · intro hsum
    by_contra hall
    push_neg at hall
    rw [sum01_all1 m hall, hlen] at hsum
    push_cast at hsum
    omega
  · intro hex
    have := sum01_lt m h01 hex
    rw [hlen] at this
    push_cast at this
    omega

theorem map_getD_lt (dates : List Int) (g : Int → Int) :
    ∀ i, i < dates.length → (dates.map g).getD i 0 = g (dates.getD i 0) := by
  induction dates with
  | nil => intro i hi; simp at hi
  | cons d t ih =>
    intro i hi
    cases i with
    | zero => rfl
    | succ i =>
      rw [List.map_cons, List.getD_cons_succ, List.getD_cons_succ]
      exact ih i (by simp only [List.length_cons] at hi; omega)

theorem getD_mem_of_lt (l : List Int) : ∀ i, i < l.length → l.getD i 0 ∈ l := by
  induction l with
  | nil => intro i hi; simp at hi
  | cons x t ih =>
    intro i hi
    cases i with
    | zero => exact List.mem_cons_self x t
    | succ i =>
      rw [List.getD_cons_succ]
      exact List.mem_cons_of_mem x (ih i (by simp only [List.length_cons] at hi; omega))

theorem sum_map_filter_eq (m : List Var) (p : Var → Bool) (g : Var → Int)
    (h : ∀ v ∈ m, p v = false → g v = 0) :
    ((m.filter p).map g).sum = (m.map g).sum := by
  induction m with
  | nil => rfl
  | cons v t ih =>
    have ht := ih (fun u hu => h u (List.mem_cons_of_mem v hu))
    rw [List.filter_cons]
    by_cases hp : p v = true
    · rw [if_pos hp, List.map_cons, List.map_cons, List.sum_cons, List.sum_cons, ht]
    · have hp' : p v = false := by
        cases hq : p v
        · rfl
        · exact absurd hq hp
      rw [if_neg (by simp [hp']), List.map_cons, List.sum_cons,
        h v (List.mem_cons_self v t) hp', ht]
      omega

theorem all_flatMap {α β : Type} (l : List α) (f : α → List β) (p : β → Bool) :
    (l.flatMap f).all p = l.all (fun x => (f x).all p) := by
  induction l with
  | nil => rfl
  | cons x t ih =>
    rw [List.flatMap_cons, List.all_append, List.all_cons, ih]

theorem all_filterMap_if {α : Type} (t : List Nat) (c : Nat → Bool) (f : Nat → α)
    (p : α → Bool) :
    ((t.filterMap (fun start => if c start then none else some (f start))).all p = true)
      ↔ (∀ start ∈ t, c start = false → p (f start) = true) := by
  induction t with
  | nil => simp
  | cons x t ih =>
    rw [List.filterMap_cons]
    by_cases hc : c x = true
    · rw [if_pos hc]
      rw [ih]
      constructor
      · intro h start hst hcf
        rcases List.mem_cons.mp hst with hq | hq
        · subst hq
          rw [hc] at hcf
          exact absurd hcf (by simp)
        · exact h start hq hcf
      · intro h start hst hcf
        exact h start (List.mem_cons_of_mem x hst) hcf
    · have hc' : c x = false := by
        cases hq : c x
        · rfl
        · exact absurd hq hc
      rw [if_neg (by simp [hc']), List.all_cons]
      rw [Bool.and_eq_true, ih]
      constructor
      · rintro ⟨h1, h2⟩ start hst hcf
        rcases List.mem_cons.mp hst with hq | hq
        · subst hq
          exact h1
        · exact h2 start hq hcf
      · intro h
        exact ⟨h x (List.mem_cons_self x t) hc',
          fun start hst hcf => h start (List.mem_cons_of_mem x hst) hcf⟩

theorem ilp_window_iff (csp : RosterCSP) (maxd : Nat) (a : Assignment) (s : String)
    (start : Nat) (hs : s ∈ csp.staff) (hstart : start + (maxd + 1) ≤ csp.dates.length)
    (h0 : ∀ v ∈ prodVarsOf csp, availVar csp v = false → pyGet a v = 0)
    (h01 : ∀ v ∈ prodVarsOf csp, pyGet a v = 0 ∨ pyGet a v = 1) :
    ((ilpWindowVars csp maxd s start).isEmpty = false →
        ilpWindowHolds csp maxd a (s, start) = true)
      ↔ ∃ i < maxd + 1, pyGet a (s, csp.dates.getD (start + i) 0) ≠ 1 := by
  have hmem : ∀ v ∈ (List.range (maxd + 1)).map
      (fun i => (s, csp.dates.getD (start + i) 0)), v ∈ prodVarsOf csp := by
    intro v hv
    rcases List.mem_map.mp hv with ⟨i, hi, rfl⟩
    have hilt : start + i < csp.dates.length := by
      have := List.mem_range.mp hi
      omega
    exact List.mem_flatMap.mpr ⟨s, hs,
      List.mem_map.mpr ⟨csp.dates.getD (start + i) 0,
        getD_mem_of_lt csp.dates (start + i) hilt, rfl⟩⟩
  have hfull : ((ilpWindowVars csp maxd s start).map (fun v => pyGet a v)).sum
      = (((List.range (maxd + 1)).map
          (fun i => (s, csp.dates.getD (start + i) 0))).map (fun v => pyGet a v)).sum := by
    unfold ilpWindowVars
    refine sum_map_filter_eq _ _ _ ?_
    intro v hv hp
    exact h0 v (hmem v hv) hp
  have hsum_iff : (((List.range (maxd + 1)).map
        (fun i => (s, csp.dates.getD (start + i) 0))).map (fun v => pyGet a v)).sum
        ≤ (maxd : Int)
      ↔ ∃ i < maxd + 1, pyGet a (s, csp.dates.getD (start + i) 0) ≠ 1 := by
    rw [window_sum_iff _ maxd (by simp) ?h01m]
    case h01m =>
      intro x hx
      rcases List.mem_map.mp hx with ⟨v, hv, rfl⟩
      exact h01 v (hmem v hv)
    constructor
    · rintro ⟨x, hx, hne⟩
      rcases List.mem_map.mp hx with ⟨v, hv, rfl⟩
      rcases List.mem_map.mp hv with ⟨i, hi, rfl⟩
      exact ⟨i, List.mem_range.mp hi, hne⟩
    · rintro ⟨i, hi, hne⟩
      exact ⟨pyGet a (s, csp.dates.getD (start + i) 0),
        List.mem_map.mpr ⟨(s, csp.dates.getD (start + i) 0),
          List.mem_map.mpr ⟨i, List.mem_range.mpr hi, rfl⟩, rfl⟩, hne⟩
  constructor
  · intro himp
    by_cases he : (ilpWindowVars csp maxd s start).isEmpty = true
    · refine hsum_iff.mp ?_
      rw [← hfull]
      rw [List.isEmpty_iff] at he
      rw [he]
      simp
    · have hholds := himp (by simpa using he)
      unfold ilpWindowHolds at hholds
      simp only [decide_eq_true_eq] at hholds
      refine hsum_iff.mp ?_
      rw [← hfull]
      exact hholds
  · intro hex _
    unfold ilpWindowHolds
    simp only [decide_eq_true_eq]
    rw [hfull]
    exact hsum_iff.mpr hex

theorem ilp_staff_iff (csp : RosterCSP) (maxd : Nat) (a : Assignment) (s : String)
    (hs : s ∈ csp.staff)
    (h0 : ∀ v ∈ prodVarsOf csp, availVar csp v = false → pyGet a v = 0)
    (h01 : ∀ v ∈ prodVarsOf csp, pyGet a v = 0 ∨ pyGet a v = 1) :
    (((List.range (csp.dates.length - maxd)).filterMap (fun start =>
        if (ilpWindowVars csp maxd s start).isEmpty then none
        else some (s, start))).all (fun w => ilpWindowHolds csp maxd a w) = true)
      ↔ goRun maxd 0 (csp.dates.map (fun d => pyGet a (s, d))) = true := by
  have hfm := all_filterMap_if (List.range (csp.dates.length - maxd))
    (fun start => (ilpWindowVars csp maxd s start).isEmpty)
    (fun start => ((s, start) : String × Nat))
    (fun w => ilpWindowHolds csp maxd a w)
  have hwin := goRun_iff_windows maxd (csp.dates.map (fun d => pyGet a (s, d)))
  rw [hwin]
  refine Iff.trans hfm ?_
  constructor
  · intro h start hlen
    have hlen' : start + (maxd + 1) ≤ csp.dates.length := by
      simpa [List.length_map] using hlen
    have hmem : start ∈ List.range (csp.dates.length - maxd) :=
      List.mem_range.mpr (by omega)
    obtain ⟨i, hi, hne⟩ := (ilp_window_iff csp maxd a s start hs hlen' h0 h01).mp
      (fun hne => h start hmem hne)
    refine ⟨i, hi, ?_⟩
    rw [map_getD_lt csp.dates (fun d => pyGet a (s, d)) (start + i) (by omega)]
    exact hne
  · intro h start hmem hne
    have hlt : start < csp.dates.length - maxd := List.mem_range.mp hmem
    have hlen' : start + (maxd + 1) ≤ csp.dates.length := by omega
    obtain ⟨i, hi, hone⟩ := h start (by rw [List.length_map]; omega)
    rw [map_getD_lt csp.dates (fun d => pyGet a (s, d)) (start + i) (by omega)] at hone
    exact (ilp_window_iff csp maxd a s start hs hlen' h0 h01).mpr ⟨i, hi, hone⟩ hne

theorem ilp_iff_check (csp : RosterCSP) (maxd : Nat) (a : Assignment)
    (h0 : ∀ v ∈ prodVarsOf csp, availVar csp v = false → pyGet a v = 0)
    (h01 : ∀ v ∈ prodVarsOf csp, pyGet a v = 0 ∨ pyGet a v = 1) :
    satisfiesIlpMaxConsec csp maxd a = true ↔
      maxConsecutiveDays_check maxd csp.dates csp.staff a = true := by
  unfold satisfiesIlpMaxConsec ilpMaxConsecWindows maxConsecutiveDays_check
  rw [all_flatMap, List.all_eq_true, List.all_eq_true]
  constructor
  · intro h s hs
    exact (ilp_staff_iff csp maxd a s hs h0 h01).mp (h s hs)
  · intro h s hs
    exact (ilp_staff_iff csp maxd a s hs h0 h01).mpr (h s hs)

theorem foldl_btStep_consistent (csp : RosterCSP) (fuel : Nat) (a0 : Assignment)
    (v : Var)
    (hrec : ∀ (a' : Assignment) (it' : Nat) (r : Assignment),
      (backtrackGo csp fuel a' it').1 = some r → is_consistent csp r = true) :
    ∀ (l : List Int) (st : Option Assignment × Nat),
      (∀ r, st.1 = some r → is_consistent csp r = true) →
      ∀ r, (l.foldl (btStep csp (backtrackGo csp fuel) a0 v) st).1 = some r →
        is_consistent csp r = true := by
  intro l
  induction l with
  | nil => intro st hst r hr; exact hst r hr
  | cons x t ih =>
    intro st hst r hr
    rw [List.foldl_cons] at hr
    refine ih _ ?_ r hr
    intro r' hr'
    obtain ⟨o, it0⟩ := st
    cases o with
    | some r0 =>
      have he : btStep csp (backtrackGo csp fuel) a0 v (some r0, it0) x
          = (some r0, it0) := rfl
      rw [he] at hr'
      have : r0 = r' := Option.some.inj hr'
      exact this ▸ hst r0 rfl
    | none =>
      have he : btStep csp (backtrackGo csp fuel) a0 v (none, it0) x
          = if (domGet csp.domains v).contains x then
              (if is_consistent csp (pyInsert a0 v x) then
                backtrackGo csp fuel (pyInsert a0 v x) it0
              else (none, it0))
            else (none, it0) := rfl
      rw [he] at hr'
      by_cases hc : (domGet csp.domains v).contains x = true
      · rw [if_pos hc] at hr'
        by_cases hcons : is_consistent csp (pyInsert a0 v x) = true
        · rw [if_pos hcons] at hr'
          exact hrec _ _ _ hr'
        · rw [if_neg hcons] at hr'
          exact absurd hr' (by simp)
      · rw [if_neg hc] at hr'
        exact absurd hr' (by simp)

theorem backtrackGo_some_consistent (csp : RosterCSP) :
    ∀ (fuel : Nat) (a : Assignment) (it : Nat) (r : Assignment),
      (backtrackGo csp fuel a it).1 = some r → is_consistent csp r = true := by
  intro fuel
  induction fuel with
  | zero =>
    intro a it r h
    exact absurd h (by simp [backtrackGo])
  | succ n ih =>
    intro a it r h
    rw [backtrackGo] at h
    by_cases hcomp : is_complete csp a = true
    · rw [if_pos hcomp] at h
      by_cases hcons : is_consistent csp a = true
      · rw [if_pos hcons] at h
        have : a = r := Option.some.inj h
        exact this ▸ hcons
      · rw [if_neg hcons] at h
        exact absurd h (by simp)
    · rw [if_neg hcomp] at h
      cases hsel : select_unassigned_variable csp a with
      | none =>
        rw [hsel] at h
        exact absurd h (by simp)
      | some v =>
        rw [hsel] at h
        exact foldl_btStep_consistent csp n a v
          (fun a' it' r' h' => ih a' it' r' h') _ _
          (fun r' hr' => absurd hr' (by simp)) r h

/-- CSP with one staff member, two dates, and a MaxConsecutiveDays(1) hard
constraint, used to witness C7. -/
def cspMaxW : RosterCSP :=
  { mkRosterCSP ["A"] [0, 1] [("A", "X")] with
    constraints := [Constraint.maxConsecutiveDays 1 [0, 1] ["A"]] }

/-- The assignment returned by the backtracking solver on `cspMaxW`. -/
def aMaxW : Assignment := [(("A", 0), 1), (("A", 1), 0)]

/-- C7: (1) the ILP formulation of MaxConsecutiveDays — one linear
constraint per staff member and per sliding window of
`max_consecutive_days + 1` consecutive roster dates, bounding the sum of
that staff member's assignment variables in the window by
`max_consecutive_days` — holds of a 0/1 assignment (with variables lacking
a decision variable fixed to 0) exactly when
`MaxConsecutiveDaysConstraint.check` passes, i.e. exactly when no staff
member has a run of assigned dates longer than `max_consecutive_days`;
(2) every solution returned by the backtracking solver satisfies every
registered hard MaxConsecutiveDays constraint, so it has no staff run
longer than `max_consecutive_days` over the constraint's dates. -/
theorem C7_max_consecutive_days :
    (∀ (csp : RosterCSP) (max_days : Nat) (a : Assignment),
      (∀ v ∈ prodVarsOf csp, availVar csp v = false → pyGet a v = 0) →
      (∀ v ∈ prodVarsOf csp, pyGet a v = 0 ∨ pyGet a v = 1) →
      (satisfiesIlpMaxConsec csp max_days a = true ↔
        Constraint.check
          (Constraint.maxConsecutiveDays max_days csp.dates csp.staff) a = true)) ∧
    (∀ (csp : RosterCSP) (max_days : Nat) (cds : List Int) (cstaff : List String)
        (a : Assignment),
      Constraint.maxConsecutiveDays max_days cds cstaff ∈ csp.constraints →
      (solve_with_backtracking csp).1 = some a →
      Constraint.check (Constraint.maxConsecutiveDays max_days cds cstaff) a = true) := by
  constructor
  · intro csp maxd a h0 h01
    show satisfiesIlpMaxConsec csp maxd a = true ↔
      maxConsecutiveDays_check maxd csp.dates csp.staff a = true
    exact ilp_iff_check csp maxd a h0 h01
  · intro csp maxd cds cstaff a hc hsol
    have h1 : (backtrackGo csp (csp.staff.length * csp.dates.length + 1)
        (csp.domains.foldl
          (fun a p => if p.2 = [0] then pyInsert a p.1 0 else a) []) 0).1
        = some a := by
      rw [← solve_eq_backtrackGo]
      exact hsol
    have hcons : is_consistent csp a = true :=
      backtrackGo_some_consistent csp _ _ _ a h1
    unfold is_consistent at hcons
    rw [List.all_eq_true] at hcons
    exact hcons _ (List.mem_filter.mpr ⟨hc, rfl⟩)

/-- Witness for C7 at a concrete instance: on `cspMaxW` (one staff member,
two dates, MaxConsecutiveDays(1)) both parts of the theorem apply, the
solver's returned assignment being `aMaxW`. -/
theorem C7_witness :
    (satisfiesIlpMaxConsec cspMaxW 1 aMaxW = true ↔
      Constraint.check
        (Constraint.maxConsecutiveDays 1 cspMaxW.dates cspMaxW.staff) aMaxW = true) ∧
    Constraint.check (Constraint.maxConsecutiveDays 1 [0, 1] ["A"]) aMaxW = true :=
  ⟨C7_max_consecutive_days.1 cspMaxW 1 aMaxW (by decide) (by decide),
   C7_max_consecutive_days.2 cspMaxW 1 [0, 1] ["A"] aMaxW (by decide) (by decide)⟩
